import Mathlib

/-!
Formal model of the `python-ioc-container` repository.

The repository ships a single source file, `src/examples.py`, which exercises
an inversion-of-control container engine (the `j2_ioc` package: `Container`,
`Lifetime`, `Scope`, `resolve`, `validate`, the builder calls
`.singleton/.scoped/.transient/.decorate/.factory`, and the error kinds
`MissingDependencyError`, `CircularDependencyError`, `ContainerError`).
The engine itself is not part of the repository, so every engine definition
below is modelled from the specification (`spec.md`), with the behaviour the
example script demonstrates taken as authoritative where the two differ.
The concrete containers near the end of the definition section are direct
translations of the containers built in `src/examples.py`.

Contracts (Python types used as registry keys) are modelled as strings, and
the implicit type-hint driven dependency discovery of the Python engine is
modelled by an explicit ordered list of dependency contracts per binding, as
sanctioned by spec section 9 ("either compile-time registration of a
constructor's dependency list ... must preserve the contract: dependencies
are discovered from the binding's declared inputs").
-/

namespace Ioc

/-- Modelled from the spec: the `Lifetime` enumeration of `j2_ioc`
(spec section 3): SINGLETON, SCOPED, TRANSIENT. -/
inductive Lifetime
  | SINGLETON
  | SCOPED
  | TRANSIENT
deriving DecidableEq, Repr

/-- Modelled from the spec: a binding's implementation-selector is either a
concrete class or a factory function (spec section 3, "Binding"). -/
inductive ImplSel
  | cls (name : String)
  | facFn (name : String)
deriving DecidableEq, Repr

/-- Name of the class or factory a selector denotes. -/
def makerName : ImplSel → String
  | .cls n => n
  | .facFn n => n

/-- Modelled from the spec: one layer of a decorator chain; a decorator
implements the contract and wraps an inner instance of the same contract,
plus zero or more other declared dependencies (spec section 3). -/
structure Decorator where
  name : String
  extraDeps : List String
deriving DecidableEq, Repr

/-- Modelled from the spec: a binding = implementation selector, declared
dependency contracts in parameter order, lifetime, and an ordered decorator
chain (spec section 3). -/
structure Binding where
  impl : ImplSel
  deps : List String
  lifetime : Lifetime
  decorators : List Decorator
deriving DecidableEq, Repr

/-- Modelled from the spec: the registration store of a `Container`: per
contract one active binding, kept in registration order (spec section 3,
section 4.1). -/
structure Container where
  bindings : List (String × Binding)
deriving DecidableEq, Repr

/-- Association-list lookup, first match wins. -/
def alook {α : Type} : List (String × α) → String → Option α
  | [], _ => none
  | (k, v) :: rest, q => if k = q then some v else alook rest q

/-- Replace the binding for a key in place, or append a fresh entry;
re-registering a contract replaces its prior binding (spec section 3). -/
def setB : List (String × Binding) → String → Binding → List (String × Binding)
  | [], k, b => [(k, b)]
  | (k', b') :: rest, k, b => if k' = k then (k, b) :: rest else (k', b') :: setB rest k b

/-- Modelled from the spec: `register(contract, implementation_or_factory,
lifetime)` stores or replaces a binding (spec section 4.1). -/
def Container.register (c : Container) (k : String) (sel : ImplSel)
    (deps : List String) (lt : Lifetime) : Container :=
  ⟨setB c.bindings k ⟨sel, deps, lt, []⟩⟩

/-- Modelled from the spec: the `.transient(contract, impl)` builder call
(spec section 6). -/
def Container.transient (c : Container) (k impl : String) (deps : List String) : Container :=
  c.register k (.cls impl) deps .TRANSIENT

/-- Modelled from the spec: the `.singleton(contract, impl)` builder call
(spec section 6). -/
def Container.singleton (c : Container) (k impl : String) (deps : List String) : Container :=
  c.register k (.cls impl) deps .SINGLETON

/-- Modelled from the spec: the `.scoped(contract, impl)` builder call
(spec section 6). -/
def Container.scoped (c : Container) (k impl : String) (deps : List String) : Container :=
  c.register k (.cls impl) deps .SCOPED

/-- Modelled from the spec: the `.factory(contract, factoryFn, lifetime)`
builder call (spec section 6). -/
def Container.factory (c : Container) (k fn : String) (deps : List String)
    (lt : Lifetime) : Container :=
  c.register k (.facFn fn) deps lt

/-- Modelled from the spec: the configuration-shape violations carried by
`ContainerError` (spec section 7). -/
inductive ContViol
  | invalidLifetime
  | decorateUnregistered (contract : String)
  | lifetimeMismatch (consumer : Option String) (dep : String)
  | scopeClosed
deriving DecidableEq, Repr

/-- Modelled from the spec: the three error kinds of `j2_ioc.errors`
(spec section 7): `MissingDependencyError` (carries the unresolved contract
and its requester), `CircularDependencyError` (carries the ordered cycle),
and `ContainerError` (carries the specific configuration violation). -/
inductive IocError
  | missingDep (dep : String) (requester : Option String)
  | circular (cycle : List String)
  | container (v : ContViol)
deriving DecidableEq, Repr

/-- Modelled from the spec: `decorate(contract, decoratorType)` appends the
decorator to the contract's chain, and fails with `ContainerError` when the
contract has no base binding yet (spec section 4.1). -/
def Container.decorate (c : Container) (k : String) (d : Decorator) :
    Except IocError Container :=
  match alook c.bindings k with
  | none => .error (.container (.decorateUnregistered k))
  | some b =>
      .ok ⟨setB c.bindings k ⟨b.impl, b.deps, b.lifetime, b.decorators ++ [d]⟩⟩

/-- Modelled from the spec: the dependency edges of a binding, in declared
parameter order: the base implementation's declared dependencies followed by
the extra (non-inner) dependencies of each decorator layer in registration
order (spec section 4.2). -/
def allDeps (b : Binding) : List String :=
  b.deps ++ b.decorators.foldr (fun d acc => d.extraDeps ++ acc) []

/-- Registered contract keys in registration order. -/
def keysOf (g : Container) : List String :=
  g.bindings.map Prod.fst

/-- Whether a contract has a binding. -/
def isReg (g : Container) (k : String) : Bool :=
  (alook g.bindings k).isSome

/-- Whether a contract is bound with SCOPED lifetime. -/
def isScopedB (g : Container) (k : String) : Bool :=
  match alook g.bindings k with
  | some b => b.lifetime = .SCOPED
  | none => false

/-- Modelled from the spec: validator phase 1 working data. All
missing-dependency violations in deterministic traversal order — contract
registration order, then declared-parameter order — as pairs
(missing dependency, consumer that required it) (spec sections 4.3 and 7). -/
def missingList (g : Container) : List (String × String) :=
  g.bindings.flatMap fun p =>
    ((allDeps p.2).filter fun d => !(isReg g d)).map fun d => (d, p.1)

/-- Drop the stack prefix strictly before the first occurrence of a node;
used to report the cycle found by the depth-first traversal. -/
def dropUntil : List String → String → List String
  | [], _ => []
  | x :: rest, n => if x = n then x :: rest else dropUntil rest n

/-- Process a worklist of nodes with the node-visitor `vf`, threading the
finished list and propagating the first reported cycle. -/
def dfsMany (vf : List String → String → Except (List String) (List String)) :
    List String → List String → Except (List String) (List String)
  | vis, [] => .ok vis
  | vis, n :: rest =>
    match vf vis n with
    | .error c => .error c
    | .ok vis' => dfsMany vf vis' rest

/-- Modelled from the spec: validator phase 2, one depth-first visit with a
recursion stack: a node revisited while still on the stack yields the
cycle, reported as the ordered stack segment from that node
(spec section 4.3). Arguments: fuel, recursion stack, finished list (in
finishing order), node. Unregistered dependencies produce no edges. -/
def visitN (g : Container) : Nat → List String → List String → String →
    Except (List String) (List String)
  | fuel, st, vis, n =>
    if n ∈ st then .error (dropUntil st n)
    else if n ∈ vis then .ok vis
    else
      match alook g.bindings n with
      | none => .ok vis
      | some b =>
        match fuel with
        | 0 => .error []
        | fuel' + 1 =>
          match dfsMany (visitN g fuel' (st ++ [n])) vis (allDeps b) with
          | .error c => .error c
          | .ok vis' => .ok (vis' ++ [n])

/-- Modelled from the spec: run the phase-2 depth-first traversal over all
registered contracts in registration order (spec section 4.3). -/
def cycleCheck (g : Container) : Except (List String) (List String) :=
  dfsMany (visitN g g.bindings.length []) [] (keysOf g)

/-- Dependencies of a registered contract; empty for unregistered ones. -/
def depsOfReg (g : Container) (k : String) : List String :=
  match alook g.bindings k with
  | some b => allDeps b
  | none => []

/-- One round of closure expansion: add every direct dependency of an
already-reached contract that has not been reached yet. -/
def expandOnce (g : Container) (vis : List String) : List String :=
  vis ++ (vis.flatMap (depsOfReg g)).filter fun d => !(vis.contains d)

/-- Iterate a function a fixed number of times. -/
def iterN {α : Type} : Nat → (α → α) → α → α
  | 0, _, a => a
  | n + 1, f, a => iterN n f (f a)

/-- Modelled from the spec: the transitive dependency closure of a list of
contracts, computed by iterating one-step expansion as many times as there
are registered bindings (spec sections 4.2 and 4.3). -/
def closureFrom (g : Container) (start : List String) : List String :=
  iterN (g.bindings.length + 1) (expandOnce g) start

/-- Modelled from the spec: validator phase 3 working data. All lifetime
mismatches in deterministic traversal order: a SINGLETON consumer whose
transitive dependency closure contains a SCOPED binding, paired with the
first such SCOPED contract found (spec section 4.3 item 3). The example
script of the repository shows a TRANSIENT binding (`EmailSender`) directly
depending on a SCOPED binding (`UserRepository`) passing `validate()`, so
TRANSIENT consumers are exempt from this check, contrary to the spec's
inferred rule (which the spec itself flags as unconfirmed, section 9). -/
def mismatchList (g : Container) : List (String × String) :=
  g.bindings.flatMap fun p =>
    match p.2.lifetime, (closureFrom g (allDeps p.2)).find? (isScopedB g) with
    | .SINGLETON, some s => [(p.1, s)]
    | _, _ => []

/-- Modelled from the spec: `validate()` — a pure, read-only pass over the
registry surfacing the first violation in deterministic order: phase 1
missing dependencies, phase 2 cycles, phase 3 lifetime compatibility
(spec sections 4.3 and 7). -/
def validate (g : Container) : Except IocError Unit :=
  match (missingList g).head? with
  | some (d, c) => .error (.missingDep d (some c))
  | none =>
    match cycleCheck g with
    | .error cyc => .error (.circular cyc)
    | .ok _ =>
      match (mismatchList g).head? with
      | some (k, s) => .error (.container (.lifetimeMismatch (some k) s))
      | none => .ok ()

/-- All violations `validate` could report, in its deterministic traversal
order; `validate` returns the first of these (phase 2 contributes at most
the one cycle its traversal finds). -/
def allViolations (g : Container) : List IocError :=
  ((missingList g).map fun p => .missingDep p.1 (some p.2)) ++
    (match cycleCheck g with
      | .error cyc => [.circular cyc]
      | .ok _ => []) ++
    (mismatchList g).map fun p => .container (.lifetimeMismatch (some p.1) p.2)

/-- Modelled from the spec: a constructed object in the resolver's object
graph. Instances are identified by their allocation index in the heap; a
`node` is a base implementation (or factory) invocation applied to resolved
dependency instances, a `deco` is a decorator layer wrapping the inner
instance of the same contract plus its extra resolved dependencies
(spec sections 4.4 and 4.5). -/
inductive ObjVal
  | node (maker : String) (args : List Nat)
  | deco (dname : String) (inner : Nat) (extra : List Nat)
deriving DecidableEq, Repr

/-- Modelled from the spec: one `Scope` — its SCOPED-tier cache and whether
it has been closed (spec sections 3 and 4.5). -/
structure ScopeSt where
  cache : List (String × Nat)
  isClosed : Bool
deriving DecidableEq, Repr

/-- Modelled from the spec: the runtime state of one container: the heap of
constructed instances (append-only, index = identity), the container-wide
SINGLETON cache, and all scopes ever opened (spec sections 3 and 4.4). -/
structure RtState where
  heap : List ObjVal
  singles : List (String × Nat)
  scopes : List ScopeSt
deriving DecidableEq, Repr

/-- Lookup in a scope's SCOPED cache. -/
def cacheGet (s : RtState) (σ : Nat) (k : String) : Option Nat :=
  match s.scopes[σ]? with
  | some sc => alook sc.cache k
  | none => none

/-- Modelled from the spec: opening a scope yields a fresh resolution
context with an empty SCOPED cache (spec section 4.5). -/
def openScope (s : RtState) : Nat × RtState :=
  (s.scopes.length, ⟨s.heap, s.singles, s.scopes ++ [⟨[], false⟩]⟩)

/-- Modelled from the spec: closing a scope releases every instance in its
SCOPED cache and makes the scope unusable for further resolution
(spec section 4.5). -/
def closeScope (σ : Nat) (s : RtState) : RtState :=
  ⟨s.heap, s.singles, s.scopes.set σ ⟨[], true⟩⟩

/-- Resolve a list of dependency contracts left to right, threading the
state, with `rf` the resolver for a single contract. -/
def manyWith (rf : String → RtState → Except IocError (Nat × RtState)) :
    List String → RtState → Except IocError (List Nat × RtState)
  | [], s => .ok ([], s)
  | d :: ds, s =>
    match rf d s with
    | .error e => .error e
    | .ok (i, s1) =>
      match manyWith rf ds s1 with
      | .error e => .error e
      | .ok (is, s2) => .ok (i :: is, s2)

/-- Apply a decorator chain innermost-first on top of the instance `i`,
resolving each decorator's extra dependencies with `rf`, so that each layer
wraps the previous layer's instance (spec section 4.4 step 4). -/
def decosWith (rf : String → RtState → Except IocError (Nat × RtState)) :
    List Decorator → Nat → RtState → Except IocError (Nat × RtState)
  | [], i, s => .ok (i, s)
  | d :: ds, i, s =>
    match manyWith rf d.extraDeps s with
    | .error e => .error e
    | .ok (ex, s1) =>
      decosWith rf ds s1.heap.length ⟨s1.heap ++ [.deco d.name i ex], s1.singles, s1.scopes⟩

/-- Construct the fully decorated instance for a binding: resolve the
declared dependencies depth-first left-to-right, instantiate the base
implementation, then apply the decorator chain innermost-first
(spec section 4.4 steps 3 and 4). -/
def buildWith (rf : String → RtState → Except IocError (Nat × RtState))
    (b : Binding) (s : RtState) : Except IocError (Nat × RtState) :=
  match manyWith rf b.deps s with
  | .error e => .error e
  | .ok (args, s1) =>
    decosWith rf b.decorators s1.heap.length
      ⟨s1.heap ++ [.node (makerName b.impl) args], s1.singles, s1.scopes⟩

/-- Lazy defense of the resolver: a SCOPED binding must not be resolved
while constructing under a SINGLETON (spec sections 4.3 and 4.4). -/
def underGuard (under : Bool) (lt : Lifetime) (req : Option String)
    (k : String) : Except IocError Unit :=
  match under, lt with
  | true, .SCOPED => .error (.container (.lifetimeMismatch req k))
  | _, _ => .ok ()

/-- Modelled from the spec: `resolve(contract)` against scope `σ`
(spec section 4.4): refuse closed scopes (section 4.5), look the binding up
(missing binding fails lazily with `MissingDependencyError`), consult the
lifetime cache tier, on a miss construct the instance and store it (unless
TRANSIENT). The resolver also defends against unvalidated containers by
surfacing lifetime-mismatch `ContainerError`s lazily: a SCOPED binding is
refused while constructing under a SINGLETON (flag `under`), and a
SINGLETON construction refuses direct SCOPED dependencies before building;
runaway recursion (skipped validation) surfaces `CircularDependencyError`
when the fuel is exhausted (spec sections 4.4 and 7). The cache is
re-checked before storing so that the first stored instance wins
(spec section 5). -/
def resolveF (g : Container) : Nat → Bool → Option String → Nat → String → RtState →
    Except IocError (Nat × RtState)
  | 0, _, _, _, _, _ => .error (.circular [])
  | fuel + 1, under, req, σ, k, s =>
    match s.scopes[σ]? with
    | none => .error (.container .scopeClosed)
    | some sc =>
      match sc.isClosed with
      | true => .error (.container .scopeClosed)
      | false =>
        match alook g.bindings k with
        | none => .error (.missingDep k req)
        | some b =>
          match underGuard under b.lifetime req k with
          | .error e => .error e
          | .ok _ =>
          match b.lifetime with
          | .SCOPED =>
            match alook sc.cache k with
            | some i => .ok (i, s)
            | none =>
              match buildWith (resolveF g fuel false (some k) σ) b s with
              | .error e => .error e
              | .ok (i, s3) =>
                match s3.scopes[σ]? with
                | none => .error (.container .scopeClosed)
                | some sc3 =>
                  match alook sc3.cache k with
                  | some j => .ok (j, s3)
                  | none =>
                    .ok (i, ⟨s3.heap, s3.singles,
                      s3.scopes.set σ ⟨sc3.cache ++ [(k, i)], sc3.isClosed⟩⟩)
          | .SINGLETON =>
            match alook s.singles k with
            | some i => .ok (i, s)
            | none =>
              match (allDeps b).find? (isScopedB g) with
              | some d => .error (.container (.lifetimeMismatch (some k) d))
              | none =>
                match buildWith (resolveF g fuel true (some k) σ) b s with
                | .error e => .error e
                | .ok (i, s3) =>
                  match alook s3.singles k with
                  | some j => .ok (j, s3)
                  | none => .ok (i, ⟨s3.heap, s3.singles ++ [(k, i)], s3.scopes⟩)
          | .TRANSIENT => buildWith (resolveF g fuel under (some k) σ) b s

/-- Fuel sufficient for any resolution over an acyclic registry: one more
than the number of registered bindings. -/
def topFuel (g : Container) : Nat :=
  g.bindings.length + 1

/-- The operations a consumer can perform against one container, as the
example script does: open a scope, close a scope, resolve a contract in a
scope, validate. -/
inductive Op
  | openSc
  | closeSc (σ : Nat)
  | callResolve (σ : Nat) (k : String)
  | callValidate
deriving DecidableEq, Repr

/-- Equality on `Except` values is decidable when it is on both sides. -/
instance exceptDecEq {α β : Type} [DecidableEq α] [DecidableEq β] :
    DecidableEq (Except α β) := fun x y =>
  match x, y with
  | .error a, .error b =>
    decidable_of_iff (a = b) ⟨fun h => by rw [h], fun h => by injection h⟩
  | .error _, .ok _ => .isFalse fun h => by injection h
  | .ok _, .error _ => .isFalse fun h => by injection h
  | .ok a, .ok b =>
    decidable_of_iff (a = b) ⟨fun h => by rw [h], fun h => by injection h⟩

/-- The observable outcome of one operation. -/
inductive Out
  | scopeId (σ : Nat)
  | closedOk
  | resolved (σ : Nat) (k : String) (r : Except IocError Nat)
  | validated (r : Except IocError Unit)
deriving DecidableEq, Repr

/-- Execute one operation: resolution uses `topFuel` and leaves the state
unchanged on failure; validation never touches the runtime state
(spec section 4.3: side-effect-free). -/
def step (g : Container) (s : RtState) : Op → RtState × Out
  | .openSc => ((openScope s).2, .scopeId (openScope s).1)
  | .closeSc σ => (closeScope σ s, .closedOk)
  | .callResolve σ k =>
    match resolveF g (topFuel g) false none σ k s with
    | .ok (i, s') => (s', .resolved σ k (.ok i))
    | .error e => (s, .resolved σ k (.error e))
  | .callValidate => (s, .validated (validate g))

/-- Execute a list of operations, collecting one outcome per operation. -/
def runFrom (g : Container) : RtState → List Op → RtState × List Out
  | s, [] => (s, [])
  | s, op :: ops =>
    let p := step g s op
    let q := runFrom g p.1 ops
    (q.1, p.2 :: q.2)

/-- The runtime state of a freshly configured container: nothing has been
constructed and no scope exists (instances are created lazily,
spec section 3). -/
def sInit : RtState :=
  ⟨[], [], []⟩

/-- Walk the decorator spine of an instance: the list of decorator layer
names from the outermost inwards, and the maker of the base instance the
chain bottoms out at. Each decorator layer forwards to exactly one inner
instance, so an operation invoked on the instance traverses each listed
layer once and reaches the base exactly once. -/
def spine (heap : List ObjVal) : Nat → Nat → Option (List String × String)
  | 0, _ => none
  | fuel + 1, i =>
    match heap[i]? with
    | some (.node m _) => some ([], m)
    | some (.deco d inner _) =>
      match spine heap fuel inner with
      | some (ds, m) => some (d :: ds, m)
      | none => none
    | none => none

/-- Decorator spine of the instance at heap index `i`. -/
def spineAt (heap : List ObjVal) (i : Nat) : Option (List String × String) :=
  spine heap (i + 1) i

/-- An empty container, `Container()` in the example script. -/
def emptyC : Container :=
  ⟨[]⟩

/-- The container configured in `src/examples.py` lines 104-122: singleton
`Config` and `Cache`, scoped `UserRepository` decorated with
`CachedUserRepository` (whose extra dependency is `Cache`), transient
`EmailSender` depending on the scoped `UserRepository`, and the builtin
`str` registered through a factory with a `Config` dependency. -/
def gDemo : Container :=
  ((((((emptyC.singleton "Config" "EnvConfig" []
      ).singleton "Cache" "InMemoryCache" []
      ).scoped "UserRepository" "PostgresUserRepository" ["Config"]
      ).decorate "UserRepository" ⟨"CachedUserRepository", ["Cache"]⟩
      ).toOption.getD emptyC
      ).transient "EmailSender" "SmtpEmailSender" ["UserRepository"]
      ).factory "str" "create_connection_string" ["Config"] .SINGLETON

/-- The missing-dependency container of `src/examples.py` lines 171-179:
one transient binding whose declared dependency is never registered. -/
def gMiss : Container :=
  emptyC.transient "NeedsUnregistered" "NeedsUnregistered" ["UnregisteredService"]

/-- The circular container of `src/examples.py` lines 184-197: two
transient bindings mutually depending on each other. -/
def gAB : Container :=
  (emptyC.transient "ServiceA" "ServiceA" ["ServiceB"]
    ).transient "ServiceB" "ServiceB" ["ServiceA"]

/-- The lifetime-mismatch container of `src/examples.py` lines 202-213: a
singleton binding directly depending on a scoped binding. -/
def gLM : Container :=
  (emptyC.scoped "ScopedService" "ScopedService" []
    ).singleton "SingletonNeedsScoped" "SingletonNeedsScoped" ["ScopedService"]

/-- A container with both a cycle among registered contracts and a missing
dependency: the missing-dependency check runs first, masking the cycle. -/
def gMaskCyc : Container :=
  (emptyC.transient "ServiceA" "ServiceA" ["ServiceB", "Missing"]
    ).transient "ServiceB" "ServiceB" ["ServiceA"]

/-- A container with both a singleton-on-scoped edge and a missing
dependency: the missing-dependency check runs first, masking the lifetime
mismatch. -/
def gMaskLM : Container :=
  (emptyC.scoped "ScopedService" "ScopedService" []
    ).singleton "SingletonNeedsScoped" "SingletonNeedsScoped" ["ScopedService", "Missing"]

/-! Association-list lemmas. -/

theorem alook_append_some {α : Type} {l : List (String × α)} {k : String} {v : α}
    (r : List (String × α)) (h : alook l k = some v) : alook (l ++ r) k = some v := by
  induction l with
  | nil => simp [alook] at h
  | cons p rest ih =>
    obtain ⟨k', v'⟩ := p
    rw [List.cons_append]
    simp only [alook] at h ⊢
    by_cases hk : k' = k
    · simpa [hk] using h
    · simp only [hk, if_false] at h ⊢
      exact ih h

theorem alook_append_none {α : Type} {l : List (String × α)} {k : String}
    (r : List (String × α)) (h : alook l k = none) : alook (l ++ r) k = alook r k := by
  induction l with
  | nil => simp
  | cons p rest ih =>
    obtain ⟨k', v'⟩ := p
    rw [List.cons_append]
    simp only [alook] at h ⊢
    by_cases hk : k' = k
    · simp [hk] at h
    · simp only [hk, if_false] at h ⊢
      exact ih h

theorem alook_mem {α : Type} {l : List (String × α)} {k : String} {v : α}
    (h : alook l k = some v) : (k, v) ∈ l := by
  induction l with
  | nil => simp [alook] at h
  | cons p rest ih =>
    obtain ⟨k', v'⟩ := p
    simp only [alook] at h
    by_cases hk : k' = k
    · simp only [hk, if_true] at h
      cases h
      simp [hk]
    · simp only [hk, if_false] at h
      exact List.mem_cons_of_mem _ (ih h)

theorem alook_of_key_mem {α : Type} {l : List (String × α)} {k : String}
    (h : k ∈ l.map Prod.fst) : ∃ v, alook l k = some v := by
  induction l with
  | nil => simp at h
  | cons p rest ih =>
    obtain ⟨k', v'⟩ := p
    simp only [List.map_cons, List.mem_cons] at h
    by_cases hk : k' = k
    · exact ⟨v', by simp [alook, hk]⟩
    · simp only [alook, hk, if_false]
      exact ih (h.resolve_left fun he => hk he.symm)

theorem key_mem_of_alook {α : Type} {l : List (String × α)} {k : String} {v : α}
    (h : alook l k = some v) : k ∈ l.map Prod.fst := by
  have := alook_mem h
  exact List.mem_map.mpr ⟨(k, v), this, rfl⟩

theorem alook_append_self {α : Type} {l : List (String × α)} {k : String} (v : α)
    (h : alook l k = none) : alook (l ++ [(k, v)]) k = some v := by
  rw [alook_append_none _ h]
  simp [alook]

/-! Spine lemmas: the decorator spine is stable under adding fuel and under
extending the heap, since the heap is append-only and instances are
immutable once constructed. -/

theorem spine_mono_fuel {heap : List ObjVal} {f f' i : Nat} {r : List String × String}
    (h : spine heap f i = some r) (hle : f ≤ f') : spine heap f' i = some r := by
  induction f generalizing i f' r with
  | zero => simp [spine] at h
  | succ f ih =>
    obtain ⟨f'', rfl⟩ : ∃ f'', f' = f'' + 1 := ⟨f' - 1, by omega⟩
    simp only [spine] at h ⊢
    cases hg : heap[i]? with
    | none => simp [hg] at h
    | some ov =>
      cases ov with
      | node m args =>
        simp only [hg] at h ⊢
        exact h
      | deco d inner extra =>
        simp only [hg] at h ⊢
        cases hs : spine heap f inner with
        | none => simp [hs] at h
        | some p =>
          obtain ⟨ds, m⟩ := p
          rw [ih hs (by omega)]
          simpa [hs] using h

theorem spine_append {heap Δ : List ObjVal} {f i : Nat} {r : List String × String}
    (h : spine heap f i = some r) : spine (heap ++ Δ) f i = some r := by
  induction f generalizing i r with
  | zero => simp [spine] at h
  | succ f ih =>
    simp only [spine] at h ⊢
    cases hg : heap[i]? with
    | none => simp [hg] at h
    | some ov =>
      have hi : i < heap.length := by
        by_contra hge
        rw [List.getElem?_eq_none (by omega)] at hg
        cases hg
      have hg' : (heap ++ Δ)[i]? = some ov := by
        rw [List.getElem?_append_left hi]
        exact hg
      cases ov with
      | node m args =>
        simp only [hg] at h
        simp only [hg']
        exact h
      | deco d inner extra =>
        simp only [hg] at h
        simp only [hg']
        cases hs : spine heap f inner with
        | none => simp [hs] at h
        | some p =>
          obtain ⟨ds, m⟩ := p
          rw [ih hs]
          simpa [hs] using h

theorem spineAt_append {heap Δ : List ObjVal} {i : Nat} {r : List String × String}
    (h : spineAt heap i = some r) : spineAt (heap ++ Δ) i = some r :=
  spine_append h

/-! Validator phase characterizations. -/

/-- Every declared dependency of every binding (including decorator extra
dependencies) has a binding of its own. -/
def AllDepsRegistered (g : Container) : Prop :=
  ∀ p ∈ g.bindings, ∀ d ∈ allDeps p.2, isReg g d = true

instance (g : Container) : Decidable (AllDepsRegistered g) := by
  unfold AllDepsRegistered
  infer_instance

theorem missingList_eq_nil_iff {g : Container} :
    missingList g = [] ↔ AllDepsRegistered g := by
  unfold missingList AllDepsRegistered
  rw [List.flatMap_eq_nil_iff]
  constructor
  · intro h p hp d hd
    have := h p hp
    rw [List.map_eq_nil_iff, List.filter_eq_nil_iff] at this
    have := this d hd
    simpa using this
  · intro h p hp
    rw [List.map_eq_nil_iff, List.filter_eq_nil_iff]
    intro d hd
    simp [h p hp d hd]

theorem mem_missingList {g : Container} {d c : String}
    (h : (d, c) ∈ missingList g) :
    ∃ b, (c, b) ∈ g.bindings ∧ d ∈ allDeps b ∧ isReg g d = false := by
  unfold missingList at h
  rw [List.mem_flatMap] at h
  obtain ⟨p, hp, hmem⟩ := h
  rw [List.mem_map] at hmem
  obtain ⟨d', hd', heq⟩ := hmem
  rw [List.mem_filter] at hd'
  cases heq
  exact ⟨p.2, by simpa using hp, hd'.1, by simpa using hd'.2⟩

/-- The per-binding contribution to `mismatchList` is empty iff the binding
is not a SINGLETON with a SCOPED service in its dependency closure. -/
theorem mismatch_entry_eq_nil {g : Container} (p : String × Binding) :
    (match p.2.lifetime, (closureFrom g (allDeps p.2)).find? (isScopedB g) with
      | .SINGLETON, some s => [(p.1, s)]
      | _, _ => ([] : List (String × String))) = [] ↔
    (p.2.lifetime = .SINGLETON →
      (closureFrom g (allDeps p.2)).find? (isScopedB g) = none) := by
  cases hlt : p.2.lifetime <;>
    cases hf : (closureFrom g (allDeps p.2)).find? (isScopedB g) <;> simp

/-- No SINGLETON binding has a SCOPED service in its transitive dependency
closure. -/
def SingletonsScopedFree (g : Container) : Prop :=
  ∀ p ∈ g.bindings, p.2.lifetime = .SINGLETON →
    (closureFrom g (allDeps p.2)).find? (isScopedB g) = none

instance (g : Container) : Decidable (SingletonsScopedFree g) := by
  unfold SingletonsScopedFree
  infer_instance

theorem mismatchList_eq_nil_iff {g : Container} :
    mismatchList g = [] ↔ SingletonsScopedFree g := by
  unfold mismatchList SingletonsScopedFree
  rw [List.flatMap_eq_nil_iff]
  constructor
  · intro h p hp
    exact (mismatch_entry_eq_nil p).mp (h p hp)
  · intro h p hp
    exact (mismatch_entry_eq_nil p).mpr (h p hp)

theorem mem_mismatchList {g : Container} {k s : String}
    (h : (k, s) ∈ mismatchList g) :
    ∃ b, (k, b) ∈ g.bindings ∧ b.lifetime = .SINGLETON ∧
      (closureFrom g (allDeps b)).find? (isScopedB g) = some s := by
  unfold mismatchList at h
  rw [List.mem_flatMap] at h
  obtain ⟨p, hp, hmem⟩ := h
  revert hmem
  cases hlt : p.2.lifetime <;>
    cases hf : (closureFrom g (allDeps p.2)).find? (isScopedB g) <;>
      simp_all
  rintro rfl rfl
  exact ⟨p.2, by simpa using hp, hlt, hf⟩

/-! Closure lemmas. -/

theorem subset_expandOnce (g : Container) (l : List String) : l ⊆ expandOnce g l :=
  fun _ hx => List.mem_append_left _ hx

theorem subset_iterN (g : Container) :
    ∀ (n : Nat) (l : List String), l ⊆ iterN n (expandOnce g) l
  | 0, _ => fun _ h => h
  | n + 1, l => fun _ h =>
    subset_iterN g n (expandOnce g l) (subset_expandOnce g l h)

theorem subset_closureFrom {g : Container} {start : List String} :
    start ⊆ closureFrom g start :=
  subset_iterN g _ start

/-! Cycle semantics: a dependency edge between two registered contracts,
chains of such edges, and genuine ordered cycles. -/

/-- Dependency edge between registered contracts: `a` is registered and the
registered contract `b` appears among `a`'s declared dependencies. -/
def edgeB (g : Container) (a b : String) : Bool :=
  match alook g.bindings a, alook g.bindings b with
  | some ba, some _ => decide (b ∈ allDeps ba)
  | _, _ => false

/-- Consecutive elements are dependency edges. -/
def chainB (g : Container) : List String → Bool
  | [] => true
  | [_] => true
  | a :: b :: rest => edgeB g a b && chainB g (b :: rest)

/-- Last element of a list, with a default for the empty list. -/
def lastD : List String → String → String
  | [], d => d
  | [x], _ => x
  | _ :: x :: rest, d => lastD (x :: rest) d

/-- The list is a genuine ordered cycle of the dependency graph: nonempty,
consecutive elements are edges, and the last element has an edge back to
the first. -/
def cycB (g : Container) : List String → Bool
  | [] => false
  | c :: rest => chainB g (c :: rest) && edgeB g (lastD (c :: rest) c) c

/-- The dependency graph has no cycle among registered contracts. -/
def NoCycle (g : Container) : Prop :=
  ∀ cyc, cycB g cyc = false

theorem edgeB_reg_left {g : Container} {a b : String} (h : edgeB g a b = true) :
    isReg g a = true := by
  unfold edgeB at h
  cases ha : alook g.bindings a with
  | some _ => simp [isReg, ha]
  | none =>
    exfalso
    rw [ha] at h
    cases hb : alook g.bindings b <;> rw [hb] at h <;> simp at h

theorem edgeB_reg_right {g : Container} {a b : String} (h : edgeB g a b = true) :
    isReg g b = true := by
  unfold edgeB at h
  cases hb : alook g.bindings b with
  | some _ => simp [isReg, hb]
  | none =>
    exfalso
    rw [hb] at h
    cases ha : alook g.bindings a <;> rw [ha] at h <;> simp at h

theorem edgeB_dep {g : Container} {a b : String} {ba : Binding}
    (h : edgeB g a b = true) (ha : alook g.bindings a = some ba) :
    b ∈ allDeps ba := by
  unfold edgeB at h
  rw [ha] at h
  cases hb : alook g.bindings b <;> rw [hb] at h <;> simp at h
  exact h

theorem edgeB_intro {g : Container} {a b : String} {ba : Binding}
    (ha : alook g.bindings a = some ba) (hb : isReg g b = true)
    (hd : b ∈ allDeps ba) : edgeB g a b = true := by
  unfold isReg at hb
  unfold edgeB
  rw [ha]
  cases hbb : alook g.bindings b with
  | none => rw [hbb] at hb; simp at hb
  | some _ => simpa using hd

theorem chainB_tail {g : Container} {a : String} {l : List String}
    (h : chainB g (a :: l) = true) : chainB g l = true := by
  cases l with
  | nil => rfl
  | cons b rest =>
    simp only [chainB, Bool.and_eq_true] at h
    exact h.2

theorem chainB_suffix {g : Container} {suf : List String} :
    ∀ pre, chainB g (pre ++ suf) = true → chainB g suf = true := by
  intro pre
  induction pre with
  | nil => intro h; exact h
  | cons p pre ih =>
    intro h
    exact ih (chainB_tail h)

theorem lastD_cons {l : List String} {x : String} (d : String) (h : l ≠ []) :
    lastD (x :: l) d = lastD l d := by
  cases l with
  | nil => exact absurd rfl h
  | cons y rest => rfl

theorem lastD_append {suf : List String} (h : suf ≠ []) :
    ∀ (pre : List String) (d : String), lastD (pre ++ suf) d = lastD suf d := by
  intro pre
  induction pre with
  | nil => intro d; rfl
  | cons p pre ih =>
    intro d
    rw [List.cons_append, lastD_cons d (by simp [h]), ih d]

theorem lastD_mem : ∀ (l : List String) (d : String), l ≠ [] → lastD l d ∈ l
  | [], _, h => absurd rfl h
  | [x], d, _ => by simp [lastD]
  | a :: x :: rest, d, _ => by
    rw [lastD_cons d (by simp)]
    exact List.mem_cons_of_mem a (lastD_mem (x :: rest) d (by simp))

theorem dropUntil_eq_cons {n : String} :
    ∀ {st : List String}, n ∈ st → ∃ tl, dropUntil st n = n :: tl := by
  intro st
  induction st with
  | nil => intro h; simp at h
  | cons x rest ih =>
    intro h
    by_cases hx : x = n
    · exact ⟨rest, by simp [dropUntil, hx]⟩
    · have : n ∈ rest := by
        rcases List.mem_cons.mp h with h1 | h1
        · exact absurd h1.symm hx
        · exact h1
      obtain ⟨tl, htl⟩ := ih this
      exact ⟨tl, by simp [dropUntil, hx, htl]⟩

theorem dropUntil_suffix {n : String} :
    ∀ (st : List String), ∃ pre, st = pre ++ dropUntil st n := by
  intro st
  induction st with
  | nil => exact ⟨[], rfl⟩
  | cons x rest ih =>
    by_cases hx : x = n
    · exact ⟨[], by simp [dropUntil, hx]⟩
    · obtain ⟨pre, hpre⟩ := ih
      exact ⟨x :: pre, by simp [dropUntil, hx]; exact hpre⟩

/-- First index of an element in a list. -/
def idxA : List String → String → Nat
  | [], _ => 0
  | x :: rest, n => if x = n then 0 else idxA rest n + 1

theorem idxA_getElem {v : String} :
    ∀ {L : List String}, v ∈ L → L[idxA L v]? = some v := by
  intro L
  induction L with
  | nil => intro h; simp at h
  | cons x rest ih =>
    intro h
    by_cases hx : x = v
    · simp [idxA, hx]
    · have : v ∈ rest := by
        rcases List.mem_cons.mp h with h1 | h1
        · exact absurd h1.symm hx
        · exact h1
      simp [idxA, hx, ih this]

theorem idxA_lt_of_mem_take {w : String} :
    ∀ {L : List String} {i : Nat}, w ∈ L.take i → idxA L w < i := by
  intro L
  induction L with
  | nil => intro i h; simp at h
  | cons x rest ih =>
    intro i h
    cases i with
    | zero => simp at h
    | succ i =>
      rw [List.take_succ_cons] at h
      by_cases hx : x = w
      · simp [idxA, hx]
      · have : w ∈ rest.take i := by
          rcases List.mem_cons.mp h with h1 | h1
          · exact absurd h1.symm hx
          · exact h1
        have := ih this
        simp [idxA, hx]
        omega

theorem lastD_default {l : List String} (h : l ≠ []) (d d' : String) :
    lastD l d = lastD l d' := by
  induction l with
  | nil => exact absurd rfl h
  | cons x rest ih =>
    cases rest with
    | nil => rfl
    | cons y t =>
      rw [lastD_cons d (by simp), lastD_cons d' (by simp)]
      exact ih (by simp)

theorem lastD_snoc (l : List String) (x d : String) : lastD (l ++ [x]) d = x := by
  rw [lastD_append (by simp) l d]
  rfl

theorem chainB_snoc {g : Container} :
    ∀ (st : List String) (n : String), chainB g st = true →
      (st ≠ [] → edgeB g (lastD st "") n = true) → chainB g (st ++ [n]) = true := by
  intro st
  induction st with
  | nil => intro n _ _; rfl
  | cons x rest ih =>
    intro n hch hedge
    cases rest with
    | nil =>
      have he := hedge (by simp)
      simp only [lastD] at he
      simp [chainB, he]
    | cons y t =>
      simp only [chainB, Bool.and_eq_true] at hch
      have he : (y :: t) ≠ [] → edgeB g (lastD (y :: t) "") n = true := by
        intro _
        have := hedge (by simp)
        rwa [lastD_cons "" (by simp)] at this
      have hrec := ih n hch.2 he
      simp only [List.cons_append] at hrec ⊢
      simp only [chainB, Bool.and_eq_true]
      refine ⟨hch.1, ?_⟩
      simpa using hrec

/-- A finished list is topologically sorted: every registered dependency of
an element appears strictly earlier. -/
def SortedL (g : Container) (L : List String) : Prop :=
  ∀ i v, L[i]? = some v → ∀ b, alook g.bindings v = some b →
    ∀ d ∈ allDeps b, isReg g d = true → d ∈ L.take i

theorem sortedL_nil (g : Container) : SortedL g [] := by
  intro i v hv
  simp at hv

theorem sortedL_snoc {g : Container} {L : List String} {n : String} {b : Binding}
    (hs : SortedL g L) (hb : alook g.bindings n = some b)
    (hdeps : ∀ d ∈ allDeps b, isReg g d = true → d ∈ L) :
    SortedL g (L ++ [n]) := by
  intro i v hv b' hb' d hd hreg
  rcases lt_trichotomy i L.length with hi | hi | hi
  · rw [List.getElem?_append_left hi] at hv
    rw [List.take_append_of_le_length (le_of_lt hi)]
    exact hs i v hv b' hb' d hd hreg
  · subst hi
    have hvn : v = n := by
      rw [List.getElem?_append_right (le_refl _)] at hv
      simp at hv
      exact hv.symm
    subst hvn
    rw [hb] at hb'
    cases hb'
    rw [List.take_append_of_le_length (le_refl _), List.take_length]
    exact hdeps d hd hreg
  · rw [List.getElem?_eq_none (by simp; omega)] at hv
    cases hv

/-- Node-visitor contract for `dfsMany`: success only extends the finished
list, covers the visited node when it is registered, and keeps the list
topologically sorted. -/
def VfOk (g : Container)
    (vf : List String → String → Except (List String) (List String)) : Prop :=
  ∀ vis n vis', vf vis n = .ok vis' →
    (∃ Δ, vis' = vis ++ Δ) ∧ (isReg g n = true → n ∈ vis') ∧
    (SortedL g vis → SortedL g vis')

theorem dfsMany_ok_spec {g : Container}
    {vf : List String → String → Except (List String) (List String)}
    (hvf : VfOk g vf) :
    ∀ (wl vis vis' : List String), dfsMany vf vis wl = .ok vis' →
      (∃ Δ, vis' = vis ++ Δ) ∧ (∀ x ∈ wl, isReg g x = true → x ∈ vis') ∧
      (SortedL g vis → SortedL g vis') := by
  intro wl
  induction wl with
  | nil =>
    intro vis vis' h
    simp only [dfsMany] at h
    injection h with h
    subst h
    exact ⟨⟨[], by simp⟩, by simp, fun hs => hs⟩
  | cons n rest ih =>
    intro vis vis' h
    simp only [dfsMany] at h
    cases h1 : vf vis n with
    | error c =>
      simp only [h1] at h
      exact Except.noConfusion h
    | ok vis1 =>
      simp only [h1] at h
      obtain ⟨⟨Δ1, hΔ1⟩, hmem1, hsort1⟩ := hvf vis n vis1 h1
      obtain ⟨⟨Δ2, hΔ2⟩, hmem2, hsort2⟩ := ih vis1 vis' h
      refine ⟨⟨Δ1 ++ Δ2, by rw [hΔ2, hΔ1]; simp⟩, ?_, fun hs => hsort2 (hsort1 hs)⟩
      intro x hx hreg
      rcases List.mem_cons.mp hx with rfl | hx
      · rw [hΔ2]
        exact List.mem_append_left _ (hmem1 hreg)
      · exact hmem2 x hx hreg

/-- Success of one depth-first visit: the finished list extends the input,
contains the visited node when registered, and stays topologically
sorted. -/
theorem visitN_ok (g : Container) :
    ∀ (fuel : Nat) (st : List String), VfOk g (visitN g fuel st) := by
  intro fuel
  induction fuel with
  | zero =>
    intro st vis n vis' h
    simp only [visitN] at h
    by_cases h1 : n ∈ st
    · rw [if_pos h1] at h
      exact Except.noConfusion h
    · rw [if_neg h1] at h
      by_cases h2 : n ∈ vis
      · rw [if_pos h2] at h
        injection h with h
        subst h
        exact ⟨⟨[], by simp⟩, fun _ => h2, fun hs => hs⟩
      · rw [if_neg h2] at h
        cases ha : alook g.bindings n with
        | none =>
          simp only [ha] at h
          injection h with h
          subst h
          refine ⟨⟨[], by simp⟩, ?_, fun hs => hs⟩
          intro hreg
          rw [isReg, ha] at hreg
          simp at hreg
        | some b =>
          simp only [ha] at h
          exact Except.noConfusion h
  | succ fuel ih =>
    intro st vis n vis' h
    simp only [visitN] at h
    by_cases h1 : n ∈ st
    · rw [if_pos h1] at h
      exact Except.noConfusion h
    · rw [if_neg h1] at h
      by_cases h2 : n ∈ vis
      · rw [if_pos h2] at h
        injection h with h
        subst h
        exact ⟨⟨[], by simp⟩, fun _ => h2, fun hs => hs⟩
      · rw [if_neg h2] at h
        cases ha : alook g.bindings n with
        | none =>
          simp only [ha] at h
          injection h with h
          subst h
          refine ⟨⟨[], by simp⟩, ?_, fun hs => hs⟩
          intro hreg
          rw [isReg, ha] at hreg
          simp at hreg
        | some b =>
          simp only [ha] at h
          cases hrec : dfsMany (visitN g fuel (st ++ [n])) vis (allDeps b) with
          | error c =>
            simp only [hrec] at h
            exact Except.noConfusion h
          | ok vis1 =>
            simp only [hrec] at h
            injection h with h
            subst h
            obtain ⟨⟨Δ, hΔ⟩, hmem, hsort⟩ :=
              dfsMany_ok_spec (ih (st ++ [n])) (allDeps b) vis vis1 hrec
            refine ⟨⟨Δ ++ [n], by rw [hΔ]; simp⟩, fun _ => by simp, ?_⟩
            intro hs
            exact sortedL_snoc (hsort hs) ha (fun d hd hr => hmem d hd hr)

theorem dfsMany_no_death
    {vf : List String → String → Except (List String) (List String)}
    (hvf : ∀ vis n, vf vis n ≠ .error []) :
    ∀ (wl vis : List String), dfsMany vf vis wl ≠ .error [] := by
  intro wl
  induction wl with
  | nil =>
    intro vis h
    simp only [dfsMany] at h
    exact Except.noConfusion h
  | cons n rest ih =>
    intro vis h
    simp only [dfsMany] at h
    cases h1 : vf vis n with
    | error c =>
      simp only [h1] at h
      injection h with h
      subst h
      exact hvf vis n h1
    | ok vis1 =>
      simp only [h1] at h
      exact ih vis1 h

/-- The visit never dies of fuel exhaustion when the fuel covers the
registered contracts not yet on the stack. -/
theorem visitN_no_death (g : Container) :
    ∀ (fuel : Nat) (st : List String), st.Nodup →
      (∀ x ∈ st, x ∈ keysOf g) →
      (keysOf g).dedup.length ≤ fuel + st.length →
      ∀ (vis : List String) (n : String),
        visitN g fuel st vis n ≠ .error [] := by
  intro fuel
  induction fuel with
  | zero =>
    intro st h1 h2 h3 vis n h
    simp only [visitN] at h
    by_cases hst : n ∈ st
    · rw [if_pos hst] at h
      obtain ⟨tl, htl⟩ := dropUntil_eq_cons hst
      injection h with h
      rw [htl] at h
      cases h
    · rw [if_neg hst] at h
      by_cases hv : n ∈ vis
      · rw [if_pos hv] at h
        exact Except.noConfusion h
      · rw [if_neg hv] at h
        cases ha : alook g.bindings n with
        | none =>
          simp only [ha] at h
          exact Except.noConfusion h
        | some b =>
          have hn : n ∈ keysOf g := key_mem_of_alook ha
          have hsub : (st ++ [n]) ⊆ (keysOf g).dedup := by
            intro x hx
            rw [List.mem_dedup]
            rcases List.mem_append.mp hx with hx | hx
            · exact h2 x hx
            · simp at hx
              subst hx
              exact hn
          have hnd : (st ++ [n]).Nodup := by
            simp [List.nodup_append, h1, hst]
          have := (hnd.subperm hsub).length_le
          simp at this
          omega
  | succ fuel ih =>
    intro st h1 h2 h3 vis n h
    simp only [visitN] at h
    by_cases hst : n ∈ st
    · rw [if_pos hst] at h
      obtain ⟨tl, htl⟩ := dropUntil_eq_cons hst
      injection h with h
      rw [htl] at h
      cases h
    · rw [if_neg hst] at h
      by_cases hv : n ∈ vis
      · rw [if_pos hv] at h
        exact Except.noConfusion h
      · rw [if_neg hv] at h
        cases ha : alook g.bindings n with
        | none =>
          simp only [ha] at h
          exact Except.noConfusion h
        | some b =>
          simp only [ha] at h
          cases hrec : dfsMany (visitN g fuel (st ++ [n])) vis (allDeps b) with
          | ok vis1 =>
            simp only [hrec] at h
            exact Except.noConfusion h
          | error c =>
            simp only [hrec] at h
            injection h with h
            subst h
            have hn : n ∈ keysOf g := key_mem_of_alook ha
            have hnd : (st ++ [n]).Nodup := by
              simp [List.nodup_append, h1, hst]
            have hsub : ∀ x ∈ st ++ [n], x ∈ keysOf g := by
              intro x hx
              rcases List.mem_append.mp hx with hx | hx
              · exact h2 x hx
              · simp at hx
                subst hx
                exact hn
            exact dfsMany_no_death
              (fun vis' n' => ih (st ++ [n]) hnd hsub (by simp; omega) vis' n')
              _ _ hrec

/-- A node found on the recursion stack closes a genuine ordered cycle. -/
theorem stackHit_cycle {g : Container} {st : List String} {n : String}
    (hmem : n ∈ st) (hreg : ∀ x ∈ st, isReg g x = true)
    (hchain : chainB g st = true)
    (hedge : ∃ bt, alook g.bindings (lastD st "") = some bt ∧ n ∈ allDeps bt) :
    cycB g (dropUntil st n) = true := by
  have hne : st ≠ [] := List.ne_nil_of_mem hmem
  obtain ⟨bt, hbt, hdep⟩ := hedge
  obtain ⟨tl, htl⟩ := dropUntil_eq_cons hmem
  obtain ⟨pre, hpre⟩ := dropUntil_suffix (n := n) st
  rw [htl]
  have hchain' : chainB g (n :: tl) = true := by
    rw [hpre, htl] at hchain
    exact chainB_suffix pre hchain
  have hlast : lastD (n :: tl) n = lastD st "" := by
    conv_rhs => rw [hpre, htl]
    rw [lastD_append (by simp) pre ""]
    exact lastD_default (by simp) n ""
  have hedge' : edgeB g (lastD (n :: tl) n) n = true := by
    rw [hlast]
    exact edgeB_intro hbt (hreg n hmem) hdep
  simp only [cycB, Bool.and_eq_true]
  exact ⟨hchain', hedge'⟩

theorem dfsMany_err {g : Container}
    {vf : List String → String → Except (List String) (List String)}
    (P : String → Prop)
    (hvf : ∀ vis n, P n → ∀ cyc, vf vis n = .error cyc →
      cyc = [] ∨ cycB g cyc = true) :
    ∀ (wl vis : List String) (cyc : List String), (∀ n ∈ wl, P n) →
      dfsMany vf vis wl = .error cyc → cyc = [] ∨ cycB g cyc = true := by
  intro wl
  induction wl with
  | nil =>
    intro vis cyc _ h
    simp only [dfsMany] at h
    exact Except.noConfusion h
  | cons n rest ih =>
    intro vis cyc hP h
    simp only [dfsMany] at h
    cases h1 : vf vis n with
    | error c =>
      simp only [h1] at h
      injection h with h
      subst h
      exact hvf vis n (hP n (by simp)) _ h1
    | ok vis1 =>
      simp only [h1] at h
      exact ih vis1 cyc (fun x hx => hP x (List.mem_cons_of_mem n hx)) h

/-- Any cycle one visit reports (other than the fuel marker `[]`) is a
genuine ordered cycle of the dependency graph. -/
theorem visitN_err (g : Container) :
    ∀ (fuel : Nat) (st : List String), (∀ x ∈ st, isReg g x = true) →
      chainB g st = true →
      ∀ (vis : List String) (n : String),
        (st = [] ∨ ∃ bt, alook g.bindings (lastD st "") = some bt ∧
          n ∈ allDeps bt) →
        ∀ cyc, visitN g fuel st vis n = .error cyc →
          cyc = [] ∨ cycB g cyc = true := by
  intro fuel
  induction fuel with
  | zero =>
    intro st hreg hchain vis n hwl cyc h
    simp only [visitN] at h
    by_cases hst : n ∈ st
    · rw [if_pos hst] at h
      injection h with h
      subst h
      have hne : st ≠ [] := List.ne_nil_of_mem hst
      exact Or.inr (stackHit_cycle hst hreg hchain (hwl.resolve_left hne))
    · rw [if_neg hst] at h
      by_cases hv : n ∈ vis
      · rw [if_pos hv] at h
        exact Except.noConfusion h
      · rw [if_neg hv] at h
        cases ha : alook g.bindings n with
        | none =>
          simp only [ha] at h
          exact Except.noConfusion h
        | some b =>
          simp only [ha] at h
          injection h with h
          exact Or.inl h.symm
  | succ fuel ih =>
    intro st hreg hchain vis n hwl cyc h
    simp only [visitN] at h
    by_cases hst : n ∈ st
    · rw [if_pos hst] at h
      injection h with h
      subst h
      have hne : st ≠ [] := List.ne_nil_of_mem hst
      exact Or.inr (stackHit_cycle hst hreg hchain (hwl.resolve_left hne))
    · rw [if_neg hst] at h
      by_cases hv : n ∈ vis
      · rw [if_pos hv] at h
        exact Except.noConfusion h
      · rw [if_neg hv] at h
        cases ha : alook g.bindings n with
        | none =>
          simp only [ha] at h
          exact Except.noConfusion h
        | some b =>
          simp only [ha] at h
          cases hrec : dfsMany (visitN g fuel (st ++ [n])) vis (allDeps b) with
          | ok vis1 =>
            simp only [hrec] at h
            exact Except.noConfusion h
          | error c =>
            simp only [hrec] at h
            injection h with h
            subst h
            have hreg' : ∀ x ∈ st ++ [n], isReg g x = true := by
              intro x hx
              rcases List.mem_append.mp hx with hx | hx
              · exact hreg x hx
              · simp at hx
                subst hx
                simp [isReg, ha]
            have hchain' : chainB g (st ++ [n]) = true := by
              refine chainB_snoc st n hchain ?_
              intro hne
              obtain ⟨bt, hbt, hdep⟩ := hwl.resolve_left hne
              exact edgeB_intro hbt (by simp [isReg, ha]) hdep
            refine dfsMany_err (fun n' => n' ∈ allDeps b) ?_ (allDeps b) vis _
              (fun n' hn' => hn') hrec
            intro vis' n' hn' cyc' herr
            refine ih (st ++ [n]) hreg' hchain' vis' n' ?_ cyc' herr
            right
            rw [lastD_snoc st n ""]
            exact ⟨b, ha, hn'⟩

/-- Fuel is always sufficient at the top level. -/

theorem cycleCheck_ne_nil (g : Container) : cycleCheck g ≠ .error [] := by
  unfold cycleCheck
  refine dfsMany_no_death ?_ _ _
  intro vis n
  refine visitN_no_death g g.bindings.length [] (by simp) (by simp) ?_ vis n
  have h1 : (keysOf g).dedup.length ≤ (keysOf g).length :=
    (keysOf g).dedup_sublist.length_le
  have h2 : (keysOf g).length = g.bindings.length := by simp [keysOf]
  omega

/-- A cycle reported by the checker is a genuine ordered cycle. -/
theorem cycleCheck_error_cycB {g : Container} {cyc : List String}
    (h : cycleCheck g = .error cyc) : cycB g cyc = true := by
  have hvf : ∀ (vis : List String) (n : String), True →
      ∀ cyc', visitN g g.bindings.length [] vis n = .error cyc' →
        cyc' = [] ∨ cycB g cyc' = true := by
    intro vis n _ cyc' herr
    exact visitN_err g g.bindings.length [] (by simp) rfl vis n (Or.inl rfl)
      cyc' herr
  have := dfsMany_err (fun _ => True) hvf (keysOf g) [] cyc (fun _ _ => trivial) h
  rcases this with rfl | hc
  · exact absurd h (cycleCheck_ne_nil g)
  · exact hc

/-- If the registry has no cycle the checker succeeds. -/
theorem cycleCheck_ok_of_noCycle {g : Container} (h : NoCycle g) :
    ∃ L, cycleCheck g = .ok L := by
  cases hc : cycleCheck g with
  | ok L => exact ⟨L, rfl⟩
  | error cyc =>
    have := cycleCheck_error_cycB hc
    rw [h cyc] at this
    cases this

/-- Completeness: if the checker succeeds, the dependency graph has no
cycle among registered contracts. -/
theorem noCycle_of_cycleCheck_ok {g : Container} {L : List String}
    (h : cycleCheck g = .ok L) : NoCycle g := by
  obtain ⟨⟨Δ, hΔ⟩, hmem, hsort⟩ :=
    dfsMany_ok_spec (visitN_ok g g.bindings.length []) (keysOf g) [] L h
  have hsL : SortedL g L := hsort (sortedL_nil g)
  have hregL : ∀ v, isReg g v = true → v ∈ L := by
    intro v hv
    rw [isReg] at hv
    cases hav : alook g.bindings v with
    | none => rw [hav] at hv; simp at hv
    | some b => exact hmem v (key_mem_of_alook hav) (by simp [isReg, hav])
  have hrank : ∀ a b, edgeB g a b = true → idxA L b < idxA L a := by
    intro a b he
    have haL : a ∈ L := hregL a (edgeB_reg_left he)
    have hbreg : isReg g b = true := edgeB_reg_right he
    have hareg := edgeB_reg_left he
    rw [isReg] at hareg
    cases hab : alook g.bindings a with
    | none => rw [hab] at hareg; simp at hareg
    | some ba =>
      have hdep : b ∈ allDeps ba := edgeB_dep he hab
      have := hsL (idxA L a) a (idxA_getElem haL) ba hab b hdep hbreg
      exact idxA_lt_of_mem_take this
  have hchainrank : ∀ (l : List String) (a d : String), chainB g (a :: l) = true →
      idxA L (lastD (a :: l) d) ≤ idxA L a := by
    intro l
    induction l with
    | nil => intro a d _; exact le_refl _
    | cons b rest ih =>
      intro a d hch
      simp only [chainB, Bool.and_eq_true] at hch
      rw [lastD_cons d (by simp)]
      exact le_of_lt (lt_of_le_of_lt (ih b d hch.2) (hrank a b hch.1))
  intro cyc
  by_contra hcyc
  rw [Bool.not_eq_false] at hcyc
  cases cyc with
  | nil => simp [cycB] at hcyc
  | cons c rest =>
    simp only [cycB, Bool.and_eq_true] at hcyc
    have h1 := hchainrank rest c c hcyc.1
    have h2 := hrank _ _ hcyc.2
    omega

theorem isReg_false_iff {g : Container} {d : String} :
    isReg g d = false ↔ alook g.bindings d = none := by
  unfold isReg
  cases alook g.bindings d <;> simp

theorem not_allDepsRegistered {g : Container} (h : ¬ AllDepsRegistered g) :
    ∃ p ∈ g.bindings, ∃ d ∈ allDeps p.2, isReg g d = false := by
  by_contra hno
  push_neg at hno
  refine h fun p hp d hd => ?_
  cases hreg : isReg g d
  · exact absurd hreg (hno p hp d hd)
  · rfl

theorem not_noCycle {g : Container} (h : ¬ NoCycle g) :
    ∃ cyc, cycB g cyc = true := by
  by_contra hno
  push_neg at hno
  refine h fun cyc => ?_
  cases hc : cycB g cyc
  · rfl
  · exact absurd hc (hno cyc)

/-- Validation succeeds exactly when all dependencies are registered, the
graph is acyclic, and no SINGLETON has a SCOPED service in its closure. -/
theorem validate_ok_iff (g : Container) :
    validate g = .ok () ↔
      AllDepsRegistered g ∧ NoCycle g ∧ SingletonsScopedFree g := by
  constructor
  · intro h
    unfold validate at h
    cases hml : missingList g with
    | cons p tl =>
      rw [hml] at h
      obtain ⟨d, c⟩ := p
      simp at h
    | nil =>
      rw [hml] at h
      cases hc : cycleCheck g with
      | error cyc =>
        rw [hc] at h
        simp at h
      | ok v =>
        rw [hc] at h
        cases hmm : mismatchList g with
        | cons q tl =>
          rw [hmm] at h
          obtain ⟨k, s⟩ := q
          simp at h
        | nil =>
          exact ⟨missingList_eq_nil_iff.mp hml, noCycle_of_cycleCheck_ok hc,
            mismatchList_eq_nil_iff.mp hmm⟩
  · rintro ⟨h1, h2, h3⟩
    obtain ⟨L, hL⟩ := cycleCheck_ok_of_noCycle h2
    unfold validate
    rw [missingList_eq_nil_iff.mpr h1, hL, mismatchList_eq_nil_iff.mpr h3]
    rfl

/-- A missing dependency makes validation fail with
`MissingDependencyError` carrying a genuine unregistered dependency and
the consumer that declared it. -/
theorem validate_missing_of_exists {g : Container}
    (h : ∃ p ∈ g.bindings, ∃ d ∈ allDeps p.2, isReg g d = false) :
    ∃ d c, validate g = .error (.missingDep d (some c)) ∧
      ∃ b, (c, b) ∈ g.bindings ∧ d ∈ allDeps b ∧
        alook g.bindings d = none := by
  have hne : missingList g ≠ [] := by
    intro hml
    have hall := missingList_eq_nil_iff.mp hml
    obtain ⟨p, hp, d, hd, hreg⟩ := h
    rw [hall p hp d hd] at hreg
    cases hreg
  cases hml : missingList g with
  | nil => exact absurd hml hne
  | cons q tl =>
    obtain ⟨d, c⟩ := q
    have hmem : (d, c) ∈ missingList g := by
      rw [hml]
      simp
    obtain ⟨b, hb, hdep, hreg⟩ := mem_missingList hmem
    refine ⟨d, c, ?_, b, hb, hdep, isReg_false_iff.mp hreg⟩
    unfold validate
    rw [hml]
    rfl

/-- With all dependencies registered, a cycle makes validation fail with
`CircularDependencyError` carrying a genuine ordered cycle. -/
theorem validate_circular_of {g : Container} (hml : AllDepsRegistered g)
    (h : ∃ cyc, cycB g cyc = true) :
    ∃ cyc, validate g = .error (.circular cyc) ∧ cycB g cyc = true := by
  obtain ⟨cyc0, hcyc0⟩ := h
  cases hc : cycleCheck g with
  | ok L =>
    have := noCycle_of_cycleCheck_ok hc cyc0
    rw [hcyc0] at this
    cases this
  | error cyc =>
    refine ⟨cyc, ?_, cycleCheck_error_cycB hc⟩
    unfold validate
    rw [missingList_eq_nil_iff.mpr hml, hc]
    rfl

/-- With all dependencies registered and no cycle, a SINGLETON whose
closure holds a SCOPED service makes validation fail with `ContainerError`
(lifetime mismatch) carrying a genuine violating pair. -/
theorem validate_mismatch_of {g : Container} (h1 : AllDepsRegistered g)
    (h2 : NoCycle g)
    (h : ∃ p ∈ g.bindings, p.2.lifetime = .SINGLETON ∧
      (closureFrom g (allDeps p.2)).find? (isScopedB g) ≠ none) :
    ∃ k s, validate g = .error (.container (.lifetimeMismatch (some k) s)) ∧
      ∃ b, (k, b) ∈ g.bindings ∧ b.lifetime = .SINGLETON ∧
        (closureFrom g (allDeps b)).find? (isScopedB g) = some s := by
  obtain ⟨L, hL⟩ := cycleCheck_ok_of_noCycle h2
  have hne : mismatchList g ≠ [] := by
    intro hmm
    have hall := mismatchList_eq_nil_iff.mp hmm
    obtain ⟨p, hp, hlt, hsc⟩ := h
    exact hsc (hall p hp hlt)
  cases hmm : mismatchList g with
  | nil => exact absurd hmm hne
  | cons q tl =>
    obtain ⟨k, s⟩ := q
    have hmem : (k, s) ∈ mismatchList g := by
      rw [hmm]
      simp
    obtain ⟨b, hb, hlt, hf⟩ := mem_mismatchList hmem
    refine ⟨k, s, ?_, b, hb, hlt, hf⟩
    unfold validate
    rw [missingList_eq_nil_iff.mpr h1, hL, hmm]
    rfl

/-- A cycle always makes validation fail (with some error). -/
theorem validate_err_of_cycle {g : Container} (h : ∃ cyc, cycB g cyc = true) :
    ∃ e, validate g = .error e := by
  by_cases hml : AllDepsRegistered g
  · obtain ⟨cyc, hv, _⟩ := validate_circular_of hml h
    exact ⟨_, hv⟩
  · obtain ⟨d, c, hv, _⟩ := validate_missing_of_exists (not_allDepsRegistered hml)
    exact ⟨_, hv⟩

/-- A SINGLETON with a SCOPED service in its closure always makes
validation fail (with some error). -/
theorem validate_err_of_sinScoped {g : Container}
    (h : ∃ p ∈ g.bindings, p.2.lifetime = .SINGLETON ∧
      (closureFrom g (allDeps p.2)).find? (isScopedB g) ≠ none) :
    ∃ e, validate g = .error e := by
  by_cases h1 : AllDepsRegistered g
  · by_cases h2 : NoCycle g
    · obtain ⟨k, s, hv, _⟩ := validate_mismatch_of h1 h2 h
      exact ⟨_, hv⟩
    · exact validate_err_of_cycle (not_noCycle h2)
  · obtain ⟨d, c, hv, _⟩ := validate_missing_of_exists (not_allDepsRegistered h1)
    exact ⟨_, hv⟩

/-- Validation reports the head of the deterministic violation list. -/
theorem validate_eq_first (g : Container) :
    validate g = (match (allViolations g).head? with
      | some e => .error e
      | none => .ok ()) := by
  unfold validate allViolations
  cases hml : missingList g with
  | cons p tl =>
    obtain ⟨d, c⟩ := p
    simp
  | nil =>
    cases hc : cycleCheck g with
    | error cyc => simp
    | ok v =>
      cases hmm : mismatchList g with
      | nil => simp
      | cons q tl =>
        obtain ⟨k, s⟩ := q
        simp

/-! Resolver invariants. The resolver only ever appends to the heap and to
the caches, every cache id indexes an existing heap instance, singleton
cache keys are SINGLETON-bound (and passed the direct scoped-dependency
scan), scoped cache keys are SCOPED-bound, and every cached instance
carries the decorator spine its binding prescribes. -/

/-- Cache ids are valid heap indices. -/
def BoundS (s : RtState) : Prop :=
  (∀ p ∈ s.singles, p.2 < s.heap.length) ∧
  (∀ sc ∈ s.scopes, ∀ p ∈ sc.cache, p.2 < s.heap.length)

/-- Cached contracts carry the lifetime of their tier. -/
def TypedC (g : Container) (s : RtState) : Prop :=
  (∀ p ∈ s.singles, ∃ b, alook g.bindings p.1 = some b ∧
    b.lifetime = .SINGLETON ∧ (allDeps b).find? (isScopedB g) = none) ∧
  (∀ sc ∈ s.scopes, ∀ p ∈ sc.cache, ∃ b, alook g.bindings p.1 = some b ∧
    b.lifetime = .SCOPED)

/-- The instance at heap index `i` carries the decorator spine prescribed
by the binding of `k`: decorator names outermost-first (reverse
registration order), bottoming out at the base implementation. -/
def spineOK (g : Container) (heap : List ObjVal) (k : String) (i : Nat) : Prop :=
  ∃ b, alook g.bindings k = some b ∧
    spineAt heap i = some ((b.decorators.map Decorator.name).reverse, makerName b.impl)

/-- Cached instances have the prescribed decorator spine. -/
def SpinesC (g : Container) (s : RtState) : Prop :=
  (∀ p ∈ s.singles, spineOK g s.heap p.1 p.2) ∧
  (∀ sc ∈ s.scopes, ∀ p ∈ sc.cache, spineOK g s.heap p.1 p.2)

/-- The resolver's state invariant. -/
def Inv (g : Container) (s : RtState) : Prop :=
  BoundS s ∧ TypedC g s ∧ SpinesC g s

/-- One resolution step only extends the state: the heap and the singleton
cache grow at the end, scopes other than the resolving one are untouched,
and the resolving scope keeps its closed flag and grows its cache. -/
def ExtendsR (σ : Nat) (s s' : RtState) : Prop :=
  (∃ Δ, s'.heap = s.heap ++ Δ) ∧
  (∃ Δ, s'.singles = s.singles ++ Δ) ∧
  s'.scopes.length = s.scopes.length ∧
  (∀ τ, τ ≠ σ → s'.scopes[τ]? = s.scopes[τ]?) ∧
  (∀ sc, s.scopes[σ]? = some sc → ∃ sc', s'.scopes[σ]? = some sc' ∧
    sc'.isClosed = sc.isClosed ∧ ∃ Δ, sc'.cache = sc.cache ++ Δ)

/-- Every cache entry is either preserved from the pre-state or has a
freshly allocated id. -/
def FreshAdds (s s' : RtState) : Prop :=
  (∀ p ∈ s'.singles, p ∈ s.singles ∨ s.heap.length ≤ p.2) ∧
  (∀ (τ : Nat) (sc' : ScopeSt), s'.scopes[τ]? = some sc' → ∀ p ∈ sc'.cache,
    (∃ sc, s.scopes[τ]? = some sc ∧ p ∈ sc.cache) ∨ s.heap.length ≤ p.2)

/-- Guarantees of a successful resolution of one contract. -/
def RetOK (g : Container) (σ : Nat) (k : String) (s s' : RtState) (i : Nat) : Prop :=
  i < s'.heap.length ∧ spineOK g s'.heap k i ∧
  ∀ b, alook g.bindings k = some b →
    (b.lifetime = .SINGLETON → alook s'.singles k = some i) ∧
    (b.lifetime = .SCOPED → cacheGet s' σ k = some i) ∧
    (b.lifetime = .TRANSIENT → s.heap.length ≤ i)

/-- A single-contract resolver respecting all resolver invariants. -/
def GoodRf (g : Container) (σ : Nat)
    (rf : String → RtState → Except IocError (Nat × RtState)) : Prop :=
  ∀ k s i s', Inv g s → rf k s = .ok (i, s') →
    Inv g s' ∧ ExtendsR σ s s' ∧ FreshAdds s s' ∧ RetOK g σ k s s' i

theorem extendsR_refl (σ : Nat) (s : RtState) : ExtendsR σ s s :=
  ⟨⟨[], by simp⟩, ⟨[], by simp⟩, rfl, fun _ _ => rfl,
    fun sc h => ⟨sc, h, rfl, ⟨[], by simp⟩⟩⟩

theorem extendsR_heap_le {σ : Nat} {s s' : RtState} (h : ExtendsR σ s s') :
    s.heap.length ≤ s'.heap.length := by
  obtain ⟨⟨Δ, hΔ⟩, _⟩ := h
  rw [hΔ]
  simp

theorem extendsR_trans {σ : Nat} {s s' s'' : RtState}
    (h1 : ExtendsR σ s s') (h2 : ExtendsR σ s' s'') : ExtendsR σ s s'' := by
  obtain ⟨⟨Δ1, hh1⟩, ⟨Γ1, hs1⟩, hl1, ho1, hc1⟩ := h1
  obtain ⟨⟨Δ2, hh2⟩, ⟨Γ2, hs2⟩, hl2, ho2, hc2⟩ := h2
  refine ⟨⟨Δ1 ++ Δ2, by rw [hh2, hh1]; simp⟩, ⟨Γ1 ++ Γ2, by rw [hs2, hs1]; simp⟩,
    by omega, fun τ hτ => (ho2 τ hτ).trans (ho1 τ hτ), ?_⟩
  intro sc hsc
  obtain ⟨sc', hsc', hcl', ⟨Δ, hΔ⟩⟩ := hc1 sc hsc
  obtain ⟨sc'', hsc'', hcl'', ⟨Γ, hΓ⟩⟩ := hc2 sc' hsc'
  exact ⟨sc'', hsc'', by rw [hcl'', hcl'], ⟨Δ ++ Γ, by rw [hΓ, hΔ]; simp⟩⟩

theorem freshAdds_refl (s : RtState) : FreshAdds s s :=
  ⟨fun _ hp => Or.inl hp, fun _ sc' hsc' _ hp => Or.inl ⟨sc', hsc', hp⟩⟩

theorem freshAdds_trans {σ : Nat} {s s' s'' : RtState} (hx : ExtendsR σ s s')
    (h1 : FreshAdds s s') (h2 : FreshAdds s' s'') : FreshAdds s s'' := by
  have hle := extendsR_heap_le hx
  refine ⟨fun p hp => ?_, fun τ sc'' hsc'' p hp => ?_⟩
  · rcases h2.1 p hp with hp' | hp'
    · exact h1.1 p hp'
    · exact Or.inr (le_trans hle hp')
  · rcases h2.2 τ sc'' hsc'' p hp with ⟨sc', hsc', hp'⟩ | hp'
    · exact h1.2 τ sc' hsc' p hp'
    · exact Or.inr (le_trans hle hp')

/-- Pushing one instance on the heap preserves everything. -/
theorem heapPush_good (g : Container) (σ : Nat) (s : RtState) (v : ObjVal)
    (hinv : Inv g s) :
    Inv g ⟨s.heap ++ [v], s.singles, s.scopes⟩ ∧
      ExtendsR σ s ⟨s.heap ++ [v], s.singles, s.scopes⟩ ∧
      FreshAdds s ⟨s.heap ++ [v], s.singles, s.scopes⟩ := by
  obtain ⟨⟨hb1, hb2⟩, ht, ⟨hp1, hp2⟩⟩ := hinv
  refine ⟨⟨⟨?_, ?_⟩, ht, ⟨?_, ?_⟩⟩, ?_, ?_⟩
  · intro p hp
    have := hb1 p hp
    simp only [List.length_append]
    omega
  · intro sc hsc p hp
    have := hb2 sc hsc p hp
    simp only [List.length_append]
    omega
  · intro p hp
    obtain ⟨b, hb, hsp⟩ := hp1 p hp
    exact ⟨b, hb, spineAt_append hsp⟩
  · intro sc hsc p hp
    obtain ⟨b, hb, hsp⟩ := hp2 sc hsc p hp
    exact ⟨b, hb, spineAt_append hsp⟩
  · exact ⟨⟨[v], rfl⟩, ⟨[], by simp⟩, rfl, fun _ _ => rfl,
      fun sc h => ⟨sc, h, rfl, ⟨[], by simp⟩⟩⟩
  · exact ⟨fun p hp => Or.inl hp, fun τ sc' hsc' p hp => Or.inl ⟨sc', hsc', hp⟩⟩

theorem manyWith_good {g : Container} {σ : Nat}
    {rf : String → RtState → Except IocError (Nat × RtState)}
    (hrf : GoodRf g σ rf) :
    ∀ (ds : List String) (s : RtState) (is : List Nat) (s' : RtState),
      Inv g s → manyWith rf ds s = .ok (is, s') →
      Inv g s' ∧ ExtendsR σ s s' ∧ FreshAdds s s' := by
  intro ds
  induction ds with
  | nil =>
    intro s is s' hinv h
    simp only [manyWith] at h
    cases h
    exact ⟨hinv, extendsR_refl σ s, freshAdds_refl s⟩
  | cons d ds ih =>
    intro s is s' hinv h
    simp only [manyWith] at h
    cases h1 : rf d s with
    | error e =>
      simp only [h1] at h
      exact Except.noConfusion h
    | ok p =>
      obtain ⟨i, s1⟩ := p
      simp only [h1] at h
      cases h2 : manyWith rf ds s1 with
      | error e =>
        simp only [h2] at h
        exact Except.noConfusion h
      | ok q =>
        obtain ⟨is2, s2⟩ := q
        simp only [h2] at h
        obtain ⟨h3, h4⟩ : i :: is2 = is ∧ s2 = s' := by
          injection h with h5
          exact ⟨congrArg Prod.fst h5, congrArg Prod.snd h5⟩
        subst h4
        obtain ⟨hinv1, hx1, hf1, _⟩ := hrf d s i s1 hinv h1
        obtain ⟨hinv2, hx2, hf2⟩ := ih s1 is2 s2 hinv1 h2
        exact ⟨hinv2, extendsR_trans hx1 hx2, freshAdds_trans hx1 hf1 hf2⟩

theorem decosWith_good {g : Container} {σ : Nat}
    {rf : String → RtState → Except IocError (Nat × RtState)}
    (hrf : GoodRf g σ rf) :
    ∀ (ds : List Decorator) (i0 : Nat) (s : RtState) (i : Nat) (s' : RtState),
      Inv g s → i0 < s.heap.length →
      decosWith rf ds i0 s = .ok (i, s') →
      Inv g s' ∧ ExtendsR σ s s' ∧ FreshAdds s s' ∧ i < s'.heap.length ∧
        i0 ≤ i ∧
        ∀ r, spineAt s.heap i0 = some r →
          spineAt s'.heap i = some ((ds.map Decorator.name).reverse ++ r.1, r.2) := by
  intro ds
  induction ds with
  | nil =>
    intro i0 s i s' hinv hi0 h
    simp only [decosWith] at h
    cases h
    refine ⟨hinv, extendsR_refl σ s, freshAdds_refl s, hi0, le_refl _, ?_⟩
    intro r hr
    simpa using hr
  | cons d ds ih =>
    intro i0 s i s' hinv hi0 h
    simp only [decosWith] at h
    cases h1 : manyWith rf d.extraDeps s with
    | error e =>
      simp only [h1] at h
      exact Except.noConfusion h
    | ok p =>
      obtain ⟨ex, s1⟩ := p
      simp only [h1] at h
      obtain ⟨hinv1, hx1, hf1⟩ := manyWith_good hrf d.extraDeps s ex s1 hinv h1
      obtain ⟨hinv2, hx2, hf2⟩ :=
        heapPush_good g σ s1 (.deco d.name i0 ex) hinv1
      have hi01 : i0 < s1.heap.length := lt_of_lt_of_le hi0 (extendsR_heap_le hx1)
      obtain ⟨hinv', hx', hf', hilt, hile, hsp⟩ :=
        ih s1.heap.length ⟨s1.heap ++ [.deco d.name i0 ex], s1.singles, s1.scopes⟩
          i s' hinv2 (by simp) h
      refine ⟨hinv', extendsR_trans hx1 (extendsR_trans hx2 hx'),
        freshAdds_trans hx1 hf1 (freshAdds_trans hx2 hf2 hf'), hilt, ?_, ?_⟩
      · have : s1.heap.length ≤ i := hile
        omega
      · intro r hr
        have hr1 : spineAt s1.heap i0 = some r := by
          obtain ⟨Δ, hΔ⟩ := hx1.1
          rw [hΔ]
          exact spineAt_append hr
        have hget : (s1.heap ++ [ObjVal.deco d.name i0 ex])[s1.heap.length]? =
            some (ObjVal.deco d.name i0 ex) := by simp
        have hspin : spine (s1.heap ++ [ObjVal.deco d.name i0 ex])
            s1.heap.length i0 = some r := by
          have h3 : spine s1.heap (i0 + 1) i0 = some r := hr1
          have h4 := spine_append (Δ := [ObjVal.deco d.name i0 ex]) h3
          exact spine_mono_fuel h4 (by omega)
        have hr2 : spineAt (s1.heap ++ [ObjVal.deco d.name i0 ex])
            s1.heap.length = some (d.name :: r.1, r.2) := by
          simp only [spineAt, spine, hget, hspin]
        have := hsp (d.name :: r.1, r.2) hr2
        simpa [List.append_assoc] using this

theorem buildWith_good {g : Container} {σ : Nat}
    {rf : String → RtState → Except IocError (Nat × RtState)}
    (hrf : GoodRf g σ rf) {b : Binding} {k : String}
    (hk : alook g.bindings k = some b) :
    ∀ (s : RtState) (i : Nat) (s' : RtState), Inv g s →
      buildWith rf b s = .ok (i, s') →
      Inv g s' ∧ ExtendsR σ s s' ∧ FreshAdds s s' ∧ i < s'.heap.length ∧
        s.heap.length ≤ i ∧ spineOK g s'.heap k i := by
  intro s i s' hinv h
  unfold buildWith at h
  cases h1 : manyWith rf b.deps s with
  | error e =>
    simp only [h1] at h
    exact Except.noConfusion h
  | ok p =>
    obtain ⟨args, s1⟩ := p
    simp only [h1] at h
    obtain ⟨hinv1, hx1, hf1⟩ := manyWith_good hrf b.deps s args s1 hinv h1
    obtain ⟨hinv2, hx2, hf2⟩ :=
      heapPush_good g σ s1 (.node (makerName b.impl) args) hinv1
    obtain ⟨hinv', hx', hf', hilt, hile, hsp⟩ :=
      decosWith_good hrf b.decorators s1.heap.length
        ⟨s1.heap ++ [.node (makerName b.impl) args], s1.singles, s1.scopes⟩
        i s' hinv2 (by simp) h
    have hget : (s1.heap ++ [ObjVal.node (makerName b.impl) args])[s1.heap.length]? =
        some (ObjVal.node (makerName b.impl) args) := by simp
    have hbase : spineAt (s1.heap ++ [ObjVal.node (makerName b.impl) args])
        s1.heap.length = some ([], makerName b.impl) := by
      simp only [spineAt, spine, hget]
    have hspine := hsp ([], makerName b.impl) hbase
    refine ⟨hinv', extendsR_trans hx1 (extendsR_trans hx2 hx'),
      freshAdds_trans hx1 hf1 (freshAdds_trans hx2 hf2 hf'), hilt, ?_, ?_⟩
    · have h5 := extendsR_heap_le hx1
      have h6 : s1.heap.length ≤ i := hile
      omega
    · exact ⟨b, hk, by simpa using hspine⟩

theorem lifetime_clauses {g : Container} {k : String} {b : Binding}
    (ha : alook g.bindings k = some b) {P Q R : Prop}
    (h1 : b.lifetime = .SINGLETON → P) (h2 : b.lifetime = .SCOPED → Q)
    (h3 : b.lifetime = .TRANSIENT → R) :
    ∀ b', alook g.bindings k = some b' →
      (b'.lifetime = .SINGLETON → P) ∧ (b'.lifetime = .SCOPED → Q) ∧
      (b'.lifetime = .TRANSIENT → R) := by
  intro b' hb'
  rw [ha] at hb'
  injection hb' with hb'
  subst hb'
  exact ⟨h1, h2, h3⟩

/-- The resolver respects all resolver invariants, at every fuel level. -/
theorem resolveF_good (g : Container) :
    ∀ (fuel : Nat) (under : Bool) (req : Option String) (σ : Nat),
      GoodRf g σ (resolveF g fuel under req σ) := by
  intro fuel
  induction fuel with
  | zero =>
    intro under req σ k s i s' hinv h
    simp only [resolveF] at h
    exact Except.noConfusion h
  | succ fuel ih =>
    intro under req σ k s i s' hinv h
    simp only [resolveF] at h
    cases hsc : s.scopes[σ]? with
    | none =>
      simp only [hsc] at h
      exact Except.noConfusion h
    | some sc =>
      simp only [hsc] at h
      cases hcl : sc.isClosed with
      | true =>
        simp only [hcl] at h
        exact Except.noConfusion h
      | false =>
        simp only [hcl] at h
        cases ha : alook g.bindings k with
        | none =>
          simp only [ha] at h
          exact Except.noConfusion h
        | some b =>
          simp only [ha] at h
          cases hg : underGuard under b.lifetime req k with
          | error e =>
            simp only [hg] at h
            exact Except.noConfusion h
          | ok u =>
            simp only [hg] at h
            cases hlt : b.lifetime with
            | SINGLETON =>
              simp only [hlt] at h
              cases hhit : alook s.singles k with
              | some i0 =>
                simp only [hhit] at h
                obtain ⟨h1, h2⟩ : i0 = i ∧ s = s' := by
                  injection h with h5
                  exact ⟨congrArg Prod.fst h5, congrArg Prod.snd h5⟩
                subst h1
                subst h2
                refine ⟨hinv, extendsR_refl σ s, freshAdds_refl s, ?_, ?_, ?_⟩
                · exact hinv.1.1 _ (alook_mem hhit)
                · exact hinv.2.2.1 _ (alook_mem hhit)
                · refine lifetime_clauses ha (fun _ => hhit) ?_ ?_
                  · intro h'
                    rw [hlt] at h'
                    exact Lifetime.noConfusion h'
                  · intro h'
                    rw [hlt] at h'
                    exact Lifetime.noConfusion h'
              | none =>
                simp only [hhit] at h
                cases hscan : (allDeps b).find? (isScopedB g) with
                | some d =>
                  simp only [hscan] at h
                  exact Except.noConfusion h
                | none =>
                  simp only [hscan] at h
                  cases hbld : buildWith (resolveF g fuel true (some k) σ) b s with
                  | error e =>
                    simp only [hbld] at h
                    exact Except.noConfusion h
                  | ok p =>
                    obtain ⟨i1, s3⟩ := p
                    simp only [hbld] at h
                    obtain ⟨hinv3, hx3, hf3, hlt3, hge3, hsp3⟩ :=
                      buildWith_good (ih true (some k) σ) ha s i1 s3 hinv hbld
                    cases hre : alook s3.singles k with
                    | some j =>
                      simp only [hre] at h
                      obtain ⟨h1, h2⟩ : j = i ∧ s3 = s' := by
                        injection h with h5
                        exact ⟨congrArg Prod.fst h5, congrArg Prod.snd h5⟩
                      subst h1
                      subst h2
                      refine ⟨hinv3, hx3, hf3, ?_, ?_, ?_⟩
                      · exact hinv3.1.1 _ (alook_mem hre)
                      · exact hinv3.2.2.1 _ (alook_mem hre)
                      · refine lifetime_clauses ha (fun _ => hre) ?_ ?_
                        · intro h'
                          rw [hlt] at h'
                          exact Lifetime.noConfusion h'
                        · intro h'
                          rw [hlt] at h'
                          exact Lifetime.noConfusion h'
                    | none =>
                      simp only [hre] at h
                      obtain ⟨h1, h2⟩ : i1 = i ∧
                          (⟨s3.heap, s3.singles ++ [(k, i1)], s3.scopes⟩ : RtState) = s' := by
                        injection h with h5
                        exact ⟨congrArg Prod.fst h5, congrArg Prod.snd h5⟩
                      subst h1
                      subst h2
                      obtain ⟨⟨hb1, hb2⟩, ⟨ht1, ht2⟩, ⟨hs1, hs2⟩⟩ := hinv3
                      refine ⟨⟨⟨?_, hb2⟩, ⟨?_, ht2⟩, ⟨?_, hs2⟩⟩, ?_, ?_, ?_, ?_, ?_⟩
                      · intro p hp
                        rcases List.mem_append.mp hp with hp | hp
                        · exact hb1 p hp
                        · simp at hp
                          subst hp
                          exact hlt3
                      · intro p hp
                        rcases List.mem_append.mp hp with hp | hp
                        · exact ht1 p hp
                        · simp at hp
                          subst hp
                          exact ⟨b, ha, hlt, hscan⟩
                      · intro p hp
                        rcases List.mem_append.mp hp with hp | hp
                        · exact hs1 p hp
                        · simp at hp
                          subst hp
                          exact hsp3
                      · refine extendsR_trans hx3 ?_
                        exact ⟨⟨[], by simp⟩, ⟨[(k, i1)], rfl⟩, rfl, fun _ _ => rfl,
                          fun sc0 h0 => ⟨sc0, h0, rfl, ⟨[], by simp⟩⟩⟩
                      · refine ⟨?_, fun τ sc' hsc' p hp => hf3.2 τ sc' hsc' p hp⟩
                        intro p hp
                        rcases List.mem_append.mp hp with hp | hp
                        · exact hf3.1 p hp
                        · simp at hp
                          subst hp
                          exact Or.inr hge3
                      · exact hlt3
                      · exact hsp3
                      · refine lifetime_clauses ha
                          (fun _ => alook_append_self i1 hre) ?_ ?_
                        · intro h'
                          rw [hlt] at h'
                          exact Lifetime.noConfusion h'
                        · intro h'
                          rw [hlt] at h'
                          exact Lifetime.noConfusion h'
            | SCOPED =>
              simp only [hlt] at h
              cases hhit : alook sc.cache k with
              | some i0 =>
                simp only [hhit] at h
                obtain ⟨h1, h2⟩ : i0 = i ∧ s = s' := by
                  injection h with h5
                  exact ⟨congrArg Prod.fst h5, congrArg Prod.snd h5⟩
                subst h1
                subst h2
                have hscm : sc ∈ s.scopes := List.getElem?_mem hsc
                refine ⟨hinv, extendsR_refl σ s, freshAdds_refl s, ?_, ?_, ?_⟩
                · exact hinv.1.2 sc hscm _ (alook_mem hhit)
                · exact hinv.2.2.2 sc hscm _ (alook_mem hhit)
                · refine lifetime_clauses ha ?_ (fun _ => ?_) ?_
                  · intro h'
                    rw [hlt] at h'
                    exact Lifetime.noConfusion h'
                  · unfold cacheGet
                    rw [hsc]
                    exact hhit
                  · intro h'
                    rw [hlt] at h'
                    exact Lifetime.noConfusion h'
              | none =>
                simp only [hhit] at h
                cases hbld : buildWith (resolveF g fuel false (some k) σ) b s with
                | error e =>
                  simp only [hbld] at h
                  exact Except.noConfusion h
                | ok p =>
                  obtain ⟨i1, s3⟩ := p
                  simp only [hbld] at h
                  obtain ⟨hinv3, hx3, hf3, hlt3, hge3, hsp3⟩ :=
                    buildWith_good (ih false (some k) σ) ha s i1 s3 hinv hbld
                  obtain ⟨sc3, hsc3, hcl3, ⟨Δc, hΔc⟩⟩ := hx3.2.2.2.2 sc hsc
                  simp only [hsc3] at h
                  cases hre : alook sc3.cache k with
                  | some j =>
                    simp only [hre] at h
                    obtain ⟨h1, h2⟩ : j = i ∧ s3 = s' := by
                      injection h with h5
                      exact ⟨congrArg Prod.fst h5, congrArg Prod.snd h5⟩
                    subst h1
                    subst h2
                    have hscm3 : sc3 ∈ s3.scopes := List.getElem?_mem hsc3
                    refine ⟨hinv3, hx3, hf3, ?_, ?_, ?_⟩
                    · exact hinv3.1.2 sc3 hscm3 _ (alook_mem hre)
                    · exact hinv3.2.2.2 sc3 hscm3 _ (alook_mem hre)
                    · refine lifetime_clauses ha ?_ (fun _ => ?_) ?_
                      · intro h'
                        rw [hlt] at h'
                        exact Lifetime.noConfusion h'
                      · unfold cacheGet
                        rw [hsc3]
                        exact hre
                      · intro h'
                        rw [hlt] at h'
                        exact Lifetime.noConfusion h'
                  | none =>
                    simp only [hre] at h
                    obtain ⟨h1, h2⟩ : i1 = i ∧
                        (⟨s3.heap, s3.singles,
                          s3.scopes.set σ ⟨sc3.cache ++ [(k, i1)], sc3.isClosed⟩⟩ :
                            RtState) = s' := by
                      injection h with h5
                      exact ⟨congrArg Prod.fst h5, congrArg Prod.snd h5⟩
                    subst h1
                    subst h2
                    have hσlt : σ < s3.scopes.length := by
                      by_contra hge
                      rw [List.getElem?_eq_none (by omega)] at hsc3
                      exact Option.noConfusion hsc3
                    have hset : (s3.scopes.set σ
                        ⟨sc3.cache ++ [(k, i1)], sc3.isClosed⟩)[σ]? =
                        some ⟨sc3.cache ++ [(k, i1)], sc3.isClosed⟩ := by
                      simp [List.getElem?_set, hσlt]
                    obtain ⟨⟨hb1, hb2⟩, ⟨ht1, ht2⟩, ⟨hs1, hs2⟩⟩ := hinv3
                    have hmemset : ∀ sc' ∈ s3.scopes.set σ
                        ⟨sc3.cache ++ [(k, i1)], sc3.isClosed⟩,
                        sc' ∈ s3.scopes ∨
                          sc' = ⟨sc3.cache ++ [(k, i1)], sc3.isClosed⟩ :=
                      fun sc' h' => List.mem_or_eq_of_mem_set h'
                    have hscm3 : sc3 ∈ s3.scopes := List.getElem?_mem hsc3
                    refine ⟨⟨⟨hb1, ?_⟩, ⟨ht1, ?_⟩, ⟨hs1, ?_⟩⟩, ?_, ?_, ?_, ?_, ?_⟩
                    · intro sc' hsc' p hp
                      rcases hmemset sc' hsc' with h' | h'
                      · exact hb2 sc' h' p hp
                      · subst h'
                        rcases List.mem_append.mp hp with hp | hp
                        · exact hb2 sc3 hscm3 p hp
                        · simp at hp
                          subst hp
                          exact hlt3
                    · intro sc' hsc' p hp
                      rcases hmemset sc' hsc' with h' | h'
                      · exact ht2 sc' h' p hp
                      · subst h'
                        rcases List.mem_append.mp hp with hp | hp
                        · exact ht2 sc3 hscm3 p hp
                        · simp at hp
                          subst hp
                          exact ⟨b, ha, hlt⟩
                    · intro sc' hsc' p hp
                      rcases hmemset sc' hsc' with h' | h'
                      · exact hs2 sc' h' p hp
                      · subst h'
                        rcases List.mem_append.mp hp with hp | hp
                        · exact hs2 sc3 hscm3 p hp
                        · simp at hp
                          subst hp
                          exact hsp3
                    · refine extendsR_trans hx3 ?_
                      refine ⟨⟨[], by simp⟩, ⟨[], by simp⟩, by simp, ?_, ?_⟩
                      · intro τ hτ
                        exact List.getElem?_set_ne (fun he => hτ he.symm)
                      · intro sc0 h0
                        rw [hsc3] at h0
                        injection h0 with h0
                        subst h0
                        exact ⟨_, hset, rfl, ⟨[(k, i1)], rfl⟩⟩
                    · refine ⟨fun p hp => hf3.1 p hp, ?_⟩
                      intro τ sc' hsc' p hp
                      by_cases hτ : τ = σ
                      · subst hτ
                        rw [hset] at hsc'
                        injection hsc' with hsc'
                        subst hsc'
                        rcases List.mem_append.mp hp with hp | hp
                        · exact hf3.2 τ sc3 hsc3 p hp
                        · simp at hp
                          subst hp
                          exact Or.inr hge3
                      · rw [List.getElem?_set_ne (fun he => hτ he.symm)] at hsc'
                        exact hf3.2 τ sc' hsc' p hp
                    · exact hlt3
                    · exact hsp3
                    · refine lifetime_clauses ha ?_ (fun _ => ?_) ?_
                      · intro h'
                        rw [hlt] at h'
                        exact Lifetime.noConfusion h'
                      · unfold cacheGet
                        rw [hset]
                        exact alook_append_self i1 hre
                      · intro h'
                        rw [hlt] at h'
                        exact Lifetime.noConfusion h'
            | TRANSIENT =>
              simp only [hlt] at h
              obtain ⟨hinv3, hx3, hf3, hlt3, hge3, hsp3⟩ :=
                buildWith_good (ih under (some k) σ) ha s i s' hinv h
              refine ⟨hinv3, hx3, hf3, hlt3, hsp3, ?_⟩
              refine lifetime_clauses ha ?_ ?_ (fun _ => hge3)
              · intro h'
                rw [hlt] at h'
                exact Lifetime.noConfusion h'
              · intro h'
                rw [hlt] at h'
                exact Lifetime.noConfusion h'

/-! Step-level lemmas: every operation preserves the resolver invariant,
only extends the heap, and treats the caches as described. -/

theorem alook_none_not_mem {α : Type} {l : List (String × α)} {k : String}
    (h : alook l k = none) : ∀ v, (k, v) ∉ l := by
  intro v hmem
  induction l with
  | nil => simp at hmem
  | cons p rest ih =>
    obtain ⟨k', v'⟩ := p
    simp only [alook] at h
    by_cases hk : k' = k
    · simp [hk] at h
    · rcases List.mem_cons.mp hmem with he | hmem'
      · exact hk (congrArg Prod.fst he).symm
      · simp only [hk, if_false] at h
        exact ih h hmem'

/-- The scope is present and already closed. -/
def ClosedAt (s : RtState) (σ : Nat) : Prop :=
  ∃ sc, s.scopes[σ]? = some sc ∧ sc.isClosed = true

/-- Distinct scopes never cache the same instance for the same contract. -/
def DisjC (s : RtState) : Prop :=
  ∀ τ1 τ2, τ1 ≠ τ2 → ∀ k i, cacheGet s τ1 k = some i →
    cacheGet s τ2 k = some i → False

theorem cacheGet_bound {g : Container} {s : RtState} {τ : Nat} {k : String} {i : Nat}
    (hinv : Inv g s) (h : cacheGet s τ k = some i) : i < s.heap.length := by
  unfold cacheGet at h
  cases hsc : s.scopes[τ]? with
  | none => rw [hsc] at h; exact Option.noConfusion h
  | some sc =>
    rw [hsc] at h
    exact hinv.1.2 sc (List.getElem?_mem hsc) _ (alook_mem h)

theorem extendsR_cacheGet_mono {σ : Nat} {s s' : RtState} {τ : Nat} {k : String}
    {i : Nat} (hx : ExtendsR σ s s') (h : cacheGet s τ k = some i) :
    cacheGet s' τ k = some i := by
  unfold cacheGet at h ⊢
  by_cases hτ : τ = σ
  · subst hτ
    cases hsc : s.scopes[τ]? with
    | none =>
      simp only [hsc] at h
      exact Option.noConfusion h
    | some sc =>
      simp only [hsc] at h
      obtain ⟨sc', hsc', _, ⟨Δ, hΔ⟩⟩ := hx.2.2.2.2 sc hsc
      simp only [hsc', hΔ]
      exact alook_append_some Δ h
  · rw [hx.2.2.2.1 τ hτ]
    exact h

theorem extendsR_cacheGet_cases {σ : Nat} {s s' : RtState} {τ : Nat} {k : String}
    {i : Nat} (hx : ExtendsR σ s s') (hf : FreshAdds s s')
    (h : cacheGet s' τ k = some i) :
    cacheGet s τ k = some i ∨ s.heap.length ≤ i := by
  unfold cacheGet at h ⊢
  by_cases hτ : τ = σ
  · subst hτ
    cases hsc : s.scopes[τ]? with
    | none =>
      cases hsc' : s'.scopes[τ]? with
      | none =>
        simp only [hsc'] at h
        exact Option.noConfusion h
      | some sc' =>
        simp only [hsc'] at h
        rcases hf.2 τ sc' hsc' _ (alook_mem h) with ⟨sc0, hsc0, _⟩ | hfr
        · rw [hsc] at hsc0
          exact Option.noConfusion hsc0
        · exact Or.inr hfr
    | some sc =>
      obtain ⟨sc', hsc', _, ⟨Δ, hΔ⟩⟩ := hx.2.2.2.2 sc hsc
      simp only [hsc'] at h
      simp only [hsc]
      cases hlk : alook sc.cache k with
      | some j =>
        rw [hΔ, alook_append_some Δ hlk] at h
        exact Or.inl h
      | none =>
        have hmem := alook_mem h
        rw [hΔ] at hmem
        rcases List.mem_append.mp hmem with hmem | hmem
        · exact absurd hmem (alook_none_not_mem hlk i)
        · rcases hf.2 τ sc' hsc' _ (by rw [hΔ]; exact List.mem_append_right _ hmem)
            with ⟨sc0, hsc0, hmem0⟩ | hfr
          · rw [hsc] at hsc0
            injection hsc0 with hsc0
            subst hsc0
            exact absurd hmem0 (alook_none_not_mem hlk i)
          · exact Or.inr hfr
  · rw [hx.2.2.2.1 τ hτ] at h
    exact Or.inl h

theorem extendsR_closedAt {σ : Nat} {s s' : RtState} {τ : Nat}
    (hx : ExtendsR σ s s') (h : ClosedAt s τ) : ClosedAt s' τ := by
  obtain ⟨sc, hsc, hcl⟩ := h
  by_cases hτ : τ = σ
  · subst hτ
    obtain ⟨sc', hsc', hcl', _⟩ := hx.2.2.2.2 sc hsc
    exact ⟨sc', hsc', by rw [hcl', hcl]⟩
  · exact ⟨sc, by rw [hx.2.2.2.1 τ hτ]; exact hsc, hcl⟩

/-- Resolving against a closed scope always fails. -/
theorem resolveF_closed {g : Container} {fuel : Nat} {under : Bool}
    {req : Option String} {σ : Nat} {k : String} {s : RtState}
    (h : ClosedAt s σ) : ∃ e, resolveF g fuel under req σ k s = .error e := by
  obtain ⟨sc, hsc, hcl⟩ := h
  cases fuel with
  | zero => exact ⟨.circular [], rfl⟩
  | succ fuel =>
    refine ⟨.container .scopeClosed, ?_⟩
    simp only [resolveF, hsc, hcl]

theorem step_resolve_ok {g : Container} {s : RtState} {σ : Nat} {k : String}
    {s' : RtState} {i : Nat}
    (h : step g s (.callResolve σ k) = (s', .resolved σ k (.ok i))) :
    resolveF g (topFuel g) false none σ k s = .ok (i, s') := by
  simp only [step] at h
  cases hr : resolveF g (topFuel g) false none σ k s with
  | ok p =>
    obtain ⟨i0, s0⟩ := p
    simp only [hr] at h
    simp only [Prod.mk.injEq, Out.resolved.injEq, Except.ok.injEq] at h
    obtain ⟨hs, _, _, hi⟩ := h
    rw [hs, hi]
  | error e =>
    simp only [hr] at h
    simp only [Prod.mk.injEq, Out.resolved.injEq] at h
    obtain ⟨_, _, _, hi⟩ := h
    exact Except.noConfusion hi

/-- Every operation either leaves the state unchanged, performs a
successful resolution, opens a scope, or closes a scope. -/
theorem step_charact (g : Container) (s : RtState) (op : Op) :
    (step g s op).1 = s ∨
    (∃ σ k i s', step g s op = (s', .resolved σ k (.ok i)) ∧
      resolveF g (topFuel g) false none σ k s = .ok (i, s')) ∨
    ((step g s op).1 = ⟨s.heap, s.singles, s.scopes ++ [⟨[], false⟩]⟩) ∨
    (∃ σc, (step g s op).1 = ⟨s.heap, s.singles, s.scopes.set σc ⟨[], true⟩⟩) := by
  cases op with
  | openSc =>
    right; right; left
    rfl
  | closeSc σc =>
    right; right; right
    exact ⟨σc, rfl⟩
  | callValidate =>
    left
    rfl
  | callResolve σ k =>
    cases hr : resolveF g (topFuel g) false none σ k s with
    | ok p =>
      obtain ⟨i, s1⟩ := p
      right; left
      refine ⟨σ, k, i, s1, ?_, hr⟩
      simp only [step, hr]
    | error e =>
      left
      simp only [step, hr]

theorem open_inv {g : Container} {s : RtState} (hinv : Inv g s) :
    Inv g ⟨s.heap, s.singles, s.scopes ++ [⟨[], false⟩]⟩ := by
  obtain ⟨⟨hb1, hb2⟩, ⟨ht1, ht2⟩, ⟨hs1, hs2⟩⟩ := hinv
  refine ⟨⟨hb1, ?_⟩, ⟨ht1, ?_⟩, ⟨hs1, ?_⟩⟩ <;>
    intro sc hsc p hp <;>
    rcases List.mem_append.mp hsc with hsc | hsc
  · exact hb2 sc hsc p hp
  · simp at hsc
    subst hsc
    simp at hp
  · exact ht2 sc hsc p hp
  · simp at hsc
    subst hsc
    simp at hp
  · exact hs2 sc hsc p hp
  · simp at hsc
    subst hsc
    simp at hp

theorem close_inv {g : Container} {s : RtState} {σc : Nat} (hinv : Inv g s) :
    Inv g ⟨s.heap, s.singles, s.scopes.set σc ⟨[], true⟩⟩ := by
  obtain ⟨⟨hb1, hb2⟩, ⟨ht1, ht2⟩, ⟨hs1, hs2⟩⟩ := hinv
  refine ⟨⟨hb1, ?_⟩, ⟨ht1, ?_⟩, ⟨hs1, ?_⟩⟩ <;>
    intro sc hsc p hp <;>
    rcases List.mem_or_eq_of_mem_set hsc with hsc | hsc
  · exact hb2 sc hsc p hp
  · subst hsc
    simp at hp
  · exact ht2 sc hsc p hp
  · subst hsc
    simp at hp
  · exact hs2 sc hsc p hp
  · subst hsc
    simp at hp

theorem step_inv {g : Container} {s : RtState} {op : Op} (hinv : Inv g s) :
    Inv g (step g s op).1 := by
  rcases step_charact g s op with he | ⟨σ, k, i, s', hst, hr⟩ | he | ⟨σc, he⟩
  · rw [he]
    exact hinv
  · have := (resolveF_good g (topFuel g) false none σ) k s i s' hinv hr
    rw [hst]
    exact this.1
  · rw [he]
    exact open_inv hinv
  · rw [he]
    exact close_inv hinv

theorem step_heap_ext {g : Container} {s : RtState} {op : Op} (hinv : Inv g s) :
    ∃ Δ, (step g s op).1.heap = s.heap ++ Δ := by
  rcases step_charact g s op with he | ⟨σ, k, i, s', hst, hr⟩ | he | ⟨σc, he⟩
  · exact ⟨[], by rw [he]; simp⟩
  · have := (resolveF_good g (topFuel g) false none σ) k s i s' hinv hr
    rw [hst]
    exact this.2.1.1
  · exact ⟨[], by rw [he]; simp⟩
  · exact ⟨[], by rw [he]; simp⟩

theorem step_singles_mono {g : Container} {s : RtState} {op : Op} {k : String}
    {i : Nat} (hinv : Inv g s) (h : alook s.singles k = some i) :
    alook (step g s op).1.singles k = some i := by
  rcases step_charact g s op with he | ⟨σ, k', i', s', hst, hr⟩ | he | ⟨σc, he⟩
  · rw [he]
    exact h
  · have := (resolveF_good g (topFuel g) false none σ) k' s i' s' hinv hr
    rw [hst]
    obtain ⟨Δ, hΔ⟩ := this.2.1.2.1
    rw [hΔ]
    exact alook_append_some Δ h
  · rw [he]
    exact h
  · rw [he]
    exact h

theorem open_cacheGet {s : RtState} {τ : Nat} {k : String} {i : Nat}
    (h : cacheGet (⟨s.heap, s.singles, s.scopes ++ [⟨[], false⟩]⟩ : RtState) τ k =
      some i) : cacheGet s τ k = some i := by
  unfold cacheGet at h ⊢
  by_cases hτ : τ < s.scopes.length
  · rw [List.getElem?_append_left hτ] at h
    exact h
  · exfalso
    rw [List.getElem?_append_right (by omega)] at h
    cases hg : ([(⟨[], false⟩ : ScopeSt)])[τ - s.scopes.length]? with
    | none => rw [hg] at h; exact Option.noConfusion h
    | some sc =>
      simp only [hg] at h
      have : sc = ⟨[], false⟩ := by
        have := List.getElem?_mem hg
        simpa using this
      subst this
      simp [alook] at h

theorem open_cacheGet_mono {s : RtState} {τ : Nat} {k : String} {i : Nat}
    (h : cacheGet s τ k = some i) :
    cacheGet (⟨s.heap, s.singles, s.scopes ++ [⟨[], false⟩]⟩ : RtState) τ k =
      some i := by
  unfold cacheGet at h ⊢
  cases hsc : s.scopes[τ]? with
  | none => rw [hsc] at h; exact Option.noConfusion h
  | some sc =>
    have hτ : τ < s.scopes.length := by
      by_contra hge
      rw [List.getElem?_eq_none (by omega)] at hsc
      exact Option.noConfusion hsc
    rw [List.getElem?_append_left hτ, hsc]
    rw [hsc] at h
    exact h

theorem open_closedAt {s : RtState} {τ : Nat}
    (h : ClosedAt s τ) :
    ClosedAt (⟨s.heap, s.singles, s.scopes ++ [⟨[], false⟩]⟩ : RtState) τ := by
  obtain ⟨sc, hsc, hcl⟩ := h
  have hτ : τ < s.scopes.length := by
    by_contra hge
    rw [List.getElem?_eq_none (by omega)] at hsc
    exact Option.noConfusion hsc
  exact ⟨sc, by rw [List.getElem?_append_left hτ]; exact hsc, hcl⟩

theorem close_cacheGet {s : RtState} {σc τ : Nat} {k : String} {i : Nat}
    (h : cacheGet (⟨s.heap, s.singles, s.scopes.set σc ⟨[], true⟩⟩ : RtState) τ k =
      some i) : τ ≠ σc ∧ cacheGet s τ k = some i := by
  unfold cacheGet at h ⊢
  by_cases hτ : τ = σc
  · exfalso
    subst hτ
    by_cases hlen : τ < s.scopes.length
    · rw [show (s.scopes.set τ ⟨[], true⟩)[τ]? = some ⟨[], true⟩ by
        simp [List.getElem?_set, hlen]] at h
      simp [alook] at h
    · rw [show (s.scopes.set τ ⟨[], true⟩)[τ]? = none by
        rw [List.getElem?_eq_none]
        · simp
          omega] at h
      exact Option.noConfusion h
  · rw [List.getElem?_set_ne (fun he => hτ he.symm)] at h
    exact ⟨hτ, h⟩

theorem close_closedAt {s : RtState} {σc τ : Nat} (h : ClosedAt s τ) :
    ClosedAt (⟨s.heap, s.singles, s.scopes.set σc ⟨[], true⟩⟩ : RtState) τ := by
  obtain ⟨sc, hsc, hcl⟩ := h
  by_cases hτ : τ = σc
  · subst hτ
    have hlen : τ < s.scopes.length := by
      by_contra hge
      rw [List.getElem?_eq_none (by omega)] at hsc
      exact Option.noConfusion hsc
    exact ⟨⟨[], true⟩, by simp [List.getElem?_set, hlen], rfl⟩
  · exact ⟨sc, by rw [List.getElem?_set_ne (fun he => hτ he.symm)]; exact hsc, hcl⟩

theorem step_closedAt {g : Container} {s : RtState} {op : Op} {σ : Nat}
    (hinv : Inv g s) (h : ClosedAt s σ) : ClosedAt (step g s op).1 σ := by
  rcases step_charact g s op with he | ⟨σ', k', i', s', hst, hr⟩ | he | ⟨σc, he⟩
  · rw [he]
    exact h
  · have := (resolveF_good g (topFuel g) false none σ') k' s i' s' hinv hr
    rw [hst]
    exact extendsR_closedAt this.2.1 h
  · rw [he]
    exact open_closedAt h
  · rw [he]
    exact close_closedAt h

theorem step_cache_or_closed {g : Container} {s : RtState} {op : Op} {σ : Nat}
    {k : String} {i : Nat} (hinv : Inv g s) (h : cacheGet s σ k = some i) :
    cacheGet (step g s op).1 σ k = some i ∨ ClosedAt (step g s op).1 σ := by
  rcases step_charact g s op with he | ⟨σ', k', i', s', hst, hr⟩ | he | ⟨σc, he⟩
  · rw [he]
    exact Or.inl h
  · have := (resolveF_good g (topFuel g) false none σ') k' s i' s' hinv hr
    rw [hst]
    exact Or.inl (extendsR_cacheGet_mono this.2.1 h)
  · rw [he]
    exact Or.inl (open_cacheGet_mono h)
  · rw [he]
    by_cases hτ : σ = σc
    · subst hτ
      right
      have hlen : σ < s.scopes.length := by
        unfold cacheGet at h
        cases hsc : s.scopes[σ]? with
        | none => rw [hsc] at h; exact Option.noConfusion h
        | some sc =>
          by_contra hge
          rw [List.getElem?_eq_none (by omega)] at hsc
          exact Option.noConfusion hsc
      exact ⟨⟨[], true⟩, by simp [List.getElem?_set, hlen], rfl⟩
    · left
      unfold cacheGet at h ⊢
      rw [List.getElem?_set_ne (fun he => hτ he.symm)]
      exact h

theorem step_cacheGet_cases {g : Container} {s : RtState} {op : Op} {τ : Nat}
    {k : String} {i : Nat} (hinv : Inv g s)
    (h : cacheGet (step g s op).1 τ k = some i) :
    cacheGet s τ k = some i ∨ s.heap.length ≤ i := by
  rcases step_charact g s op with he | ⟨σ', k', i', s', hst, hr⟩ | he | ⟨σc, he⟩
  · rw [he] at h
    exact Or.inl h
  · have := (resolveF_good g (topFuel g) false none σ') k' s i' s' hinv hr
    rw [hst] at h
    exact extendsR_cacheGet_cases this.2.1 this.2.2.1 h
  · rw [he] at h
    exact Or.inl (open_cacheGet h)
  · rw [he] at h
    exact Or.inl (close_cacheGet h).2

theorem extendsR_cacheGet_other {σ : Nat} {s s' : RtState} {τ : Nat} {k : String}
    (hx : ExtendsR σ s s') (hτ : τ ≠ σ) : cacheGet s' τ k = cacheGet s τ k := by
  unfold cacheGet
  rw [hx.2.2.2.1 τ hτ]

theorem step_disj {g : Container} {s : RtState} {op : Op} (hinv : Inv g s)
    (hd : DisjC s) : DisjC (step g s op).1 := by
  rcases step_charact g s op with he | ⟨σ', k', i', s', hst, hr⟩ | he | ⟨σc, he⟩
  · rw [he]
    exact hd
  · have hR := (resolveF_good g (topFuel g) false none σ') k' s i' s' hinv hr
    rw [hst]
    intro τ1 τ2 hne k i h1 h2
    by_cases h1e : τ1 = σ'
    · subst h1e
      have h2ne : τ2 ≠ τ1 := fun he' => hne he'.symm
      rw [extendsR_cacheGet_other hR.2.1 h2ne] at h2
      rcases extendsR_cacheGet_cases hR.2.1 hR.2.2.1 h1 with hold | hfr
      · exact hd τ1 τ2 hne k i hold h2
      · have := cacheGet_bound hinv h2
        omega
    · rw [extendsR_cacheGet_other hR.2.1 h1e] at h1
      by_cases h2e : τ2 = σ'
      · subst h2e
        rcases extendsR_cacheGet_cases hR.2.1 hR.2.2.1 h2 with hold | hfr
        · exact hd τ1 τ2 hne k i h1 hold
        · have := cacheGet_bound hinv h1
          omega
      · rw [extendsR_cacheGet_other hR.2.1 h2e] at h2
        exact hd τ1 τ2 hne k i h1 h2
  · rw [he]
    intro τ1 τ2 hne k i h1 h2
    exact hd τ1 τ2 hne k i (open_cacheGet h1) (open_cacheGet h2)
  · rw [he]
    intro τ1 τ2 hne k i h1 h2
    exact hd τ1 τ2 hne k i (close_cacheGet h1).2 (close_cacheGet h2).2

/-! Trace lemmas over `runFrom`. -/

theorem runFrom_inv {g : Container} :
    ∀ (ops : List Op) (s : RtState), Inv g s → Inv g (runFrom g s ops).1 := by
  intro ops
  induction ops with
  | nil => intro s h; exact h
  | cons op ops ih =>
    intro s h
    simp only [runFrom]
    exact ih _ (step_inv h)

theorem runFrom_heap_ext {g : Container} :
    ∀ (ops : List Op) (s : RtState), Inv g s →
      ∃ Δ, (runFrom g s ops).1.heap = s.heap ++ Δ := by
  intro ops
  induction ops with
  | nil => intro s _; exact ⟨[], by simp [runFrom]⟩
  | cons op ops ih =>
    intro s h
    simp only [runFrom]
    obtain ⟨Δ1, h1⟩ := @step_heap_ext g s op h
    obtain ⟨Δ2, h2⟩ := ih (step g s op).1 (step_inv h)
    exact ⟨Δ1 ++ Δ2, by rw [h2, h1]; simp⟩

theorem runFrom_heap_le {g : Container} {ops : List Op} {s : RtState}
    (h : Inv g s) : s.heap.length ≤ (runFrom g s ops).1.heap.length := by
  obtain ⟨Δ, hΔ⟩ := runFrom_heap_ext ops s h
  rw [hΔ]
  simp

theorem runFrom_singles_mono {g : Container} :
    ∀ (ops : List Op) (s : RtState) (k : String) (i : Nat), Inv g s →
      alook s.singles k = some i →
      alook (runFrom g s ops).1.singles k = some i := by
  intro ops
  induction ops with
  | nil => intro s k i _ h; exact h
  | cons op ops ih =>
    intro s k i hinv h
    simp only [runFrom]
    exact ih _ k i (step_inv hinv) (step_singles_mono hinv h)

/-- A `resolved` outcome comes from a successful `resolveF` call. -/
theorem step_out_resolved {g : Container} {s : RtState} {op : Op} {σ : Nat}
    {k : String} {i : Nat}
    (h : (step g s op).2 = .resolved σ k (.ok i)) :
    resolveF g (topFuel g) false none σ k s = .ok (i, (step g s op).1) := by
  cases op with
  | openSc => simp [step] at h
  | closeSc σc => simp [step] at h
  | callValidate => simp [step] at h
  | callResolve σ' k' =>
    cases hr : resolveF g (topFuel g) false none σ' k' s with
    | ok p =>
      obtain ⟨i0, s0⟩ := p
      simp only [step, hr] at h ⊢
      simp only [Out.resolved.injEq, Except.ok.injEq] at h
      obtain ⟨h1, h2, h3⟩ := h
      subst h1
      subst h2
      subst h3
      exact hr
    | error e =>
      simp only [step, hr] at h
      simp only [Out.resolved.injEq] at h
      exact Except.noConfusion h.2.2

/-- A contract whose binding has a direct SCOPED dependency is never in the
singleton cache. -/
theorem singles_none_of_scan {g : Container} {s : RtState} {k : String}
    {b : Binding} {d : String} (hinv : Inv g s)
    (hb : alook g.bindings k = some b)
    (hscan : (allDeps b).find? (isScopedB g) = some d) :
    alook s.singles k = none := by
  cases hlk : alook s.singles k with
  | none => rfl
  | some i =>
    exfalso
    obtain ⟨b', hb', _, hscan'⟩ := hinv.2.1.1 _ (alook_mem hlk)
    rw [hb] at hb'
    injection hb' with hb'
    subst hb'
    rw [hscan'] at hscan
    exact Option.noConfusion hscan

/-- Every successful resolution of a SINGLETON contract installs its
result in the singleton cache of the final state of the run. -/
theorem trace_singleton_final {g : Container} {k : String} {b : Binding}
    (hb : alook g.bindings k = some b) (hlt : b.lifetime = .SINGLETON) :
    ∀ (ops : List Op) (s : RtState), Inv g s →
      ∀ (m σ : Nat) (i : Nat),
        (runFrom g s ops).2[m]? = some (.resolved σ k (.ok i)) →
        alook (runFrom g s ops).1.singles k = some i := by
  intro ops
  induction ops with
  | nil =>
    intro s _ m σ i h
    simp [runFrom] at h
  | cons op ops ih =>
    intro s hinv m σ i h
    simp only [runFrom] at h ⊢
    cases m with
    | zero =>
      rw [List.getElem?_cons_zero] at h
      injection h with h
      have hr := step_out_resolved h
      have hR := (resolveF_good g (topFuel g) false none σ) k s i _ hinv hr
      have h1 : alook (step g s op).1.singles k = some i :=
        (hR.2.2.2.2.2 b hb).1 hlt
      exact runFrom_singles_mono ops _ k i (step_inv hinv) h1
    | succ m =>
      rw [List.getElem?_cons_succ] at h
      exact ih _ (step_inv hinv) m σ i h

/-- A TRANSIENT contract is never cached in any tier. -/
theorem transient_not_cached {g : Container} {s : RtState} {k : String}
    {b : Binding} (hinv : Inv g s) (hb : alook g.bindings k = some b)
    (hlt : b.lifetime = .TRANSIENT) :
    (∀ p ∈ s.singles, p.1 ≠ k) ∧
      (∀ sc ∈ s.scopes, ∀ p ∈ sc.cache, p.1 ≠ k) := by
  constructor
  · intro p hp he
    obtain ⟨b', hb', hlt', _⟩ := hinv.2.1.1 p hp
    rw [he, hb] at hb'
    injection hb' with hb'
    subst hb'
    rw [hlt] at hlt'
    exact Lifetime.noConfusion hlt'
  · intro sc hsc p hp he
    obtain ⟨b', hb', hlt'⟩ := hinv.2.1.2 sc hsc p hp
    rw [he, hb] at hb'
    injection hb' with hb'
    subst hb'
    rw [hlt] at hlt'
    exact Lifetime.noConfusion hlt'

/-- Later resolutions of a TRANSIENT contract return ids distinct from any
already-allocated id. -/
theorem trace_transient_ne {g : Container} {k : String} {b : Binding}
    (hb : alook g.bindings k = some b) (hlt : b.lifetime = .TRANSIENT) :
    ∀ (ops : List Op) (s : RtState), Inv g s → ∀ (i1 : Nat),
      i1 < s.heap.length →
      ∀ (n σ2 : Nat) (i2 : Nat),
        (runFrom g s ops).2[n]? = some (.resolved σ2 k (.ok i2)) → i2 ≠ i1 := by
  intro ops
  induction ops with
  | nil =>
    intro s _ i1 _ n σ2 i2 h
    simp [runFrom] at h
  | cons op ops ih =>
    intro s hinv i1 hi1 n σ2 i2 h
    simp only [runFrom] at h
    cases n with
    | zero =>
      rw [List.getElem?_cons_zero] at h
      injection h with h
      have hr := step_out_resolved h
      have hR := (resolveF_good g (topFuel g) false none σ2) k s i2 _ hinv hr
      have h2 : s.heap.length ≤ i2 := (hR.2.2.2.2.2 b hb).2.2 hlt
      omega
    | succ n =>
      rw [List.getElem?_cons_succ] at h
      obtain ⟨Δ, hΔ⟩ := @step_heap_ext g s op hinv
      refine ih _ (step_inv hinv) i1 ?_ n σ2 i2 h
      rw [hΔ]
      simp only [List.length_append]
      omega

/-- No scope ever yields a successful resolution after it was closed. -/
theorem trace_closed_no_ok {g : Container} :
    ∀ (ops : List Op) (s : RtState), Inv g s → ∀ (σ : Nat), ClosedAt s σ →
      ∀ (n : Nat) (k : String) (i : Nat),
        (runFrom g s ops).2[n]? = some (.resolved σ k (.ok i)) → False := by
  intro ops
  induction ops with
  | nil =>
    intro s _ σ _ n k i h
    simp [runFrom] at h
  | cons op ops ih =>
    intro s hinv σ hcl n k i h
    simp only [runFrom] at h
    cases n with
    | zero =>
      rw [List.getElem?_cons_zero] at h
      injection h with h
      have hr := step_out_resolved h
      obtain ⟨e, he⟩ := @resolveF_closed g (topFuel g) false none σ k s hcl
      rw [he] at hr
      exact Except.noConfusion hr
    | succ n =>
      rw [List.getElem?_cons_succ] at h
      exact ih _ (step_inv hinv) σ (step_closedAt hinv hcl) n k i h

/-- Once a SCOPED contract is cached in a scope, every later successful
resolution in that scope returns the cached id. -/
theorem trace_scoped_eq {g : Container} {k : String} {b : Binding}
    (hb : alook g.bindings k = some b) (hlt : b.lifetime = .SCOPED) :
    ∀ (ops : List Op) (s : RtState), Inv g s → ∀ (σ : Nat) (i : Nat),
      cacheGet s σ k = some i →
      ∀ (n : Nat) (i2 : Nat),
        (runFrom g s ops).2[n]? = some (.resolved σ k (.ok i2)) → i2 = i := by
  intro ops
  induction ops with
  | nil =>
    intro s _ σ i _ n i2 h
    simp [runFrom] at h
  | cons op ops ih =>
    intro s hinv σ i hc n i2 h
    simp only [runFrom] at h
    cases n with
    | zero =>
      rw [List.getElem?_cons_zero] at h
      injection h with h
      have hr := step_out_resolved h
      have hR := (resolveF_good g (topFuel g) false none σ) k s i2 _ hinv hr
      have h2 : cacheGet (step g s op).1 σ k = some i2 :=
        (hR.2.2.2.2.2 b hb).2.1 hlt
      have h3 : cacheGet (step g s op).1 σ k = some i :=
        extendsR_cacheGet_mono hR.2.1 hc
      rw [h2] at h3
      exact Option.some.inj h3
    | succ n =>
      rw [List.getElem?_cons_succ] at h
      rcases @step_cache_or_closed g s op σ k i hinv hc with hc' | hcl
      · exact ih _ (step_inv hinv) σ i hc' n i2 h
      · exact absurd h (fun h' =>
          trace_closed_no_ok ops _ (step_inv hinv) σ hcl n k i2 h')

/-- A resolution of a SCOPED contract in a different scope never returns an
id that another scope already produced for that contract. -/
theorem trace_cross_ne {g : Container} {k : String} {b : Binding}
    (hb : alook g.bindings k = some b) (hlt : b.lifetime = .SCOPED) :
    ∀ (ops : List Op) (s : RtState), Inv g s → DisjC s →
      ∀ (σ1 : Nat) (i1 : Nat), i1 < s.heap.length →
      (∀ τ, τ ≠ σ1 → cacheGet s τ k ≠ some i1) →
      ∀ (n σ2 : Nat) (i2 : Nat), σ2 ≠ σ1 →
        (runFrom g s ops).2[n]? = some (.resolved σ2 k (.ok i2)) → i2 ≠ i1 := by
  intro ops
  induction ops with
  | nil =>
    intro s _ _ σ1 i1 _ _ n σ2 i2 _ h
    simp [runFrom] at h
  | cons op ops ih =>
    intro s hinv hd σ1 i1 hi1 hno n σ2 i2 hσ h
    simp only [runFrom] at h
    cases n with
    | zero =>
      rw [List.getElem?_cons_zero] at h
      injection h with h
      have hr := step_out_resolved h
      have hR := (resolveF_good g (topFuel g) false none σ2) k s i2 _ hinv hr
      have h2 : cacheGet (step g s op).1 σ2 k = some i2 :=
        (hR.2.2.2.2.2 b hb).2.1 hlt
      intro he
      subst he
      rcases extendsR_cacheGet_cases hR.2.1 hR.2.2.1 h2 with hold | hfr
      · exact hno σ2 hσ hold
      · omega
    | succ n =>
      rw [List.getElem?_cons_succ] at h
      obtain ⟨Δ, hΔ⟩ := @step_heap_ext g s op hinv
      refine ih _ (step_inv hinv) (step_disj hinv hd) σ1 i1 ?_ ?_ n σ2 i2 hσ h
      · rw [hΔ]
        simp only [List.length_append]
        omega
      · intro τ hτ hc
        rcases @step_cacheGet_cases g s op τ k i1 hinv hc with hold | hfr
        · exact hno τ hτ hold
        · omega

/-- Every successful resolution outcome carries the decorator spine its
binding prescribes, read back from the final heap of the run. -/
theorem trace_spine {g : Container} {k : String} :
    ∀ (ops : List Op) (s : RtState), Inv g s →
      ∀ (m σ : Nat) (i : Nat),
        (runFrom g s ops).2[m]? = some (.resolved σ k (.ok i)) →
        spineOK g (runFrom g s ops).1.heap k i := by
  intro ops
  induction ops with
  | nil =>
    intro s _ m σ i h
    simp [runFrom] at h
  | cons op ops ih =>
    intro s hinv m σ i h
    simp only [runFrom] at h ⊢
    cases m with
    | zero =>
      rw [List.getElem?_cons_zero] at h
      injection h with h
      have hr := step_out_resolved h
      have hR := (resolveF_good g (topFuel g) false none σ) k s i _ hinv hr
      obtain ⟨b', hb', hsp⟩ := hR.2.2.2.2.1
      obtain ⟨Δ, hΔ⟩ := runFrom_heap_ext ops _ (step_inv hinv)
      exact ⟨b', hb', by rw [hΔ]; exact spineAt_append hsp⟩
    | succ m =>
      rw [List.getElem?_cons_succ] at h
      exact ih _ (step_inv hinv) m σ i h

theorem inv_sInit (g : Container) : Inv g sInit := by
  refine ⟨⟨?_, ?_⟩, ⟨?_, ?_⟩, ⟨?_, ?_⟩⟩ <;> intro p hp <;> simp [sInit] at hp

theorem disj_sInit : DisjC sInit := by
  intro τ1 τ2 _ k i h1
  unfold cacheGet sInit at h1
  simp at h1

/-- Whether an operation is a resolution. -/
def isResolveOp : Op → Bool
  | .callResolve _ _ => true
  | _ => false

theorem step_no_resolve {g : Container} {s : RtState} {op : Op}
    (h : isResolveOp op = false) :
    (step g s op).1.heap = s.heap ∧ (step g s op).1.singles = s.singles := by
  cases op with
  | openSc => exact ⟨rfl, rfl⟩
  | closeSc σc => exact ⟨rfl, rfl⟩
  | callValidate => exact ⟨rfl, rfl⟩
  | callResolve σ k => simp [isResolveOp] at h

theorem runFrom_no_resolve {g : Container} :
    ∀ (ops : List Op) (s : RtState), (∀ op ∈ ops, isResolveOp op = false) →
      (runFrom g s ops).1.heap = s.heap ∧
        (runFrom g s ops).1.singles = s.singles := by
  intro ops
  induction ops with
  | nil => intro s _; exact ⟨rfl, rfl⟩
  | cons op ops ih =>
    intro s h
    simp only [runFrom]
    obtain ⟨h1, h2⟩ := step_no_resolve (g := g) (s := s) (h op (by simp))
    obtain ⟨h3, h4⟩ := ih (step g s op).1 (fun op' hop' => h op' (by simp [hop']))
    exact ⟨h3.trans h1, h4.trans h2⟩

theorem alook_setB (l : List (String × Binding)) (k : String) (b : Binding) :
    alook (setB l k b) k = some b := by
  induction l with
  | nil => simp [setB, alook]
  | cons p rest ih =>
    obtain ⟨k', b'⟩ := p
    by_cases hk : k' = k
    · simp [setB, hk, alook]
    · simp only [setB, hk, if_false]
      simp only [alook, hk, if_false]
      exact ih

/-- Resolving a SINGLETON with a direct SCOPED dependency fails with a
lifetime-mismatch `ContainerError` in any invariant-respecting state with
an open scope. -/
theorem resolve_singleton_direct_scoped {g : Container} {k : String}
    {b : Binding} {d : String} (hb : alook g.bindings k = some b)
    (hlt : b.lifetime = .SINGLETON)
    (hscan : (allDeps b).find? (isScopedB g) = some d)
    {s : RtState} (hinv : Inv g s) {σ : Nat} {sc : ScopeSt}
    (hsc : s.scopes[σ]? = some sc) (hop : sc.isClosed = false)
    (fuel : Nat) (under : Bool) (req : Option String) :
    resolveF g (fuel + 1) under req σ k s =
      .error (.container (.lifetimeMismatch (some k) d)) := by
  have hnone := singles_none_of_scan hinv hb hscan
  have hug : underGuard under Lifetime.SINGLETON req k = .ok () := by
    cases under <;> rfl
  simp only [resolveF, hsc, hop, hb, hlt, hug, hnone, hscan]

/-- An instance whose spine starts with a decorator name is a decorator
node of that name. -/
theorem spineAt_head_deco {heap : List ObjVal} {i : Nat} {nm : String}
    {ds : List String} {mk : String}
    (h : spineAt heap i = some (nm :: ds, mk)) :
    ∃ inner extra, heap[i]? = some (.deco nm inner extra) := by
  unfold spineAt spine at h
  cases hg : heap[i]? with
  | none => simp [hg] at h
  | some ov =>
    cases ov with
    | node m args =>
      simp only [hg] at h
      injection h with h
      exact absurd (congrArg Prod.fst h) (by simp)
    | deco d inner extra =>
      simp only [hg] at h
      cases hs : spine heap i inner with
      | none => simp [hs] at h
      | some p =>
        simp only [hs] at h
        injection h with h
        have hde := congrArg Prod.fst h
        simp at hde
        obtain ⟨hd1, _⟩ := hde
        subst hd1
        exact ⟨inner, extra, rfl⟩

/-- Two successful resolutions of a SCOPED contract in the same scope agree. -/
theorem trace_scoped_pair {g : Container} {k : String} {b : Binding}
    (hb : alook g.bindings k = some b) (hlt : b.lifetime = .SCOPED) :
    ∀ (ops : List Op) (s : RtState), Inv g s →
      ∀ (m n σ : Nat) (i1 i2 : Nat),
        (runFrom g s ops).2[m]? = some (.resolved σ k (.ok i1)) →
        (runFrom g s ops).2[n]? = some (.resolved σ k (.ok i2)) → i1 = i2 := by
  intro ops
  induction ops with
  | nil =>
    intro s _ m n σ i1 i2 h1 _
    simp [runFrom] at h1
  | cons op ops ih =>
    intro s hinv m n σ i1 i2 h1 h2
    simp only [runFrom] at h1 h2
    cases m with
    | zero =>
      rw [List.getElem?_cons_zero] at h1
      injection h1 with h1
      have hr := step_out_resolved h1
      have hR := (resolveF_good g (topFuel g) false none σ) k s i1 _ hinv hr
      have hc : cacheGet (step g s op).1 σ k = some i1 :=
        (hR.2.2.2.2.2 b hb).2.1 hlt
      cases n with
      | zero =>
        rw [List.getElem?_cons_zero] at h2
        injection h2 with h2
        rw [h1] at h2
        injection h2 with _ _ h2
        exact (Except.ok.inj h2)
      | succ n =>
        rw [List.getElem?_cons_succ] at h2
        exact (trace_scoped_eq hb hlt ops _ (step_inv hinv) σ i1 hc n i2 h2).symm
    | succ m =>
      rw [List.getElem?_cons_succ] at h1
      cases n with
      | zero =>
        rw [List.getElem?_cons_zero] at h2
        injection h2 with h2
        have hr := step_out_resolved h2
        have hR := (resolveF_good g (topFuel g) false none σ) k s i2 _ hinv hr
        have hc : cacheGet (step g s op).1 σ k = some i2 :=
          (hR.2.2.2.2.2 b hb).2.1 hlt
        exact trace_scoped_eq hb hlt ops _ (step_inv hinv) σ i2 hc m i1 h1
      | succ n =>
        rw [List.getElem?_cons_succ] at h2
        exact ih _ (step_inv hinv) m n σ i1 i2 h1 h2

/-- Two successful resolutions of a SCOPED contract in distinct scopes
disagree. -/
theorem trace_cross_pair {g : Container} {k : String} {b : Binding}
    (hb : alook g.bindings k = some b) (hlt : b.lifetime = .SCOPED) :
    ∀ (ops : List Op) (s : RtState), Inv g s → DisjC s →
      ∀ (m n σ1 σ2 : Nat) (i1 i2 : Nat), σ1 ≠ σ2 →
        (runFrom g s ops).2[m]? = some (.resolved σ1 k (.ok i1)) →
        (runFrom g s ops).2[n]? = some (.resolved σ2 k (.ok i2)) → i1 ≠ i2 := by
  intro ops
  induction ops with
  | nil =>
    intro s _ _ m n σ1 σ2 i1 i2 _ h1 _
    simp [runFrom] at h1
  | cons op ops ih =>
    intro s hinv hd m n σ1 σ2 i1 i2 hne h1 h2
    simp only [runFrom] at h1 h2
    cases m with
    | zero =>
      rw [List.getElem?_cons_zero] at h1
      injection h1 with h1
      have hr := step_out_resolved h1
      have hR := (resolveF_good g (topFuel g) false none σ1) k s i1 _ hinv hr
      have hc : cacheGet (step g s op).1 σ1 k = some i1 :=
        (hR.2.2.2.2.2 b hb).2.1 hlt
      cases n with
      | zero =>
        rw [List.getElem?_cons_zero] at h2
        injection h2 with h2
        rw [h1] at h2
        injection h2 with hσ _ _
        exact absurd hσ hne
      | succ n =>
        rw [List.getElem?_cons_succ] at h2
        have hne2 : σ2 ≠ σ1 := fun he => hne he.symm
        have hno : ∀ τ, τ ≠ σ1 → cacheGet (step g s op).1 τ k ≠ some i1 := by
          intro τ hτ hcc
          exact step_disj hinv hd τ σ1 hτ k i1 hcc hc
        have := trace_cross_ne hb hlt ops _ (step_inv hinv) (step_disj hinv hd)
          σ1 i1 hR.2.2.2.1 hno n σ2 i2 hne2 h2
        exact fun he => this he.symm
    | succ m =>
      rw [List.getElem?_cons_succ] at h1
      cases n with
      | zero =>
        rw [List.getElem?_cons_zero] at h2
        injection h2 with h2
        have hr := step_out_resolved h2
        have hR := (resolveF_good g (topFuel g) false none σ2) k s i2 _ hinv hr
        have hc : cacheGet (step g s op).1 σ2 k = some i2 :=
          (hR.2.2.2.2.2 b hb).2.1 hlt
        have hno : ∀ τ, τ ≠ σ2 → cacheGet (step g s op).1 τ k ≠ some i2 := by
          intro τ hτ hcc
          exact step_disj hinv hd τ σ2 hτ k i2 hcc hc
        exact trace_cross_ne hb hlt ops _ (step_inv hinv) (step_disj hinv hd)
          σ2 i2 hR.2.2.2.1 hno m σ1 i1 hne h1
      | succ n =>
        rw [List.getElem?_cons_succ] at h2
        exact ih _ (step_inv hinv) (step_disj hinv hd) m n σ1 σ2 i1 i2 hne h1 h2

/-- Two distinct successful resolutions of a TRANSIENT contract disagree. -/
theorem trace_transient_pair {g : Container} {k : String} {b : Binding}
    (hb : alook g.bindings k = some b) (hlt : b.lifetime = .TRANSIENT) :
    ∀ (ops : List Op) (s : RtState), Inv g s →
      ∀ (m n σ1 σ2 : Nat) (i1 i2 : Nat), m ≠ n →
        (runFrom g s ops).2[m]? = some (.resolved σ1 k (.ok i1)) →
        (runFrom g s ops).2[n]? = some (.resolved σ2 k (.ok i2)) → i1 ≠ i2 := by
  intro ops
  induction ops with
  | nil =>
    intro s _ m n σ1 σ2 i1 i2 _ h1 _
    simp [runFrom] at h1
  | cons op ops ih =>
    intro s hinv m n σ1 σ2 i1 i2 hmn h1 h2
    simp only [runFrom] at h1 h2
    cases m with
    | zero =>
      rw [List.getElem?_cons_zero] at h1
      injection h1 with h1
      have hr := step_out_resolved h1
      have hR := (resolveF_good g (topFuel g) false none σ1) k s i1 _ hinv hr
      cases n with
      | zero => exact absurd rfl hmn
      | succ n =>
        rw [List.getElem?_cons_succ] at h2
        have := trace_transient_ne hb hlt ops _ (step_inv hinv) i1
          hR.2.2.2.1 n σ2 i2 h2
        exact fun he => this he.symm
    | succ m =>
      rw [List.getElem?_cons_succ] at h1
      cases n with
      | zero =>
        rw [List.getElem?_cons_zero] at h2
        injection h2 with h2
        have hr := step_out_resolved h2
        have hR := (resolveF_good g (topFuel g) false none σ2) k s i2 _ hinv hr
        exact trace_transient_ne hb hlt ops _ (step_inv hinv) i2
          hR.2.2.2.1 m σ1 i1 h1
      | succ n =>
        rw [List.getElem?_cons_succ] at h2
        exact ih _ (step_inv hinv) m n σ1 σ2 i1 i2 (fun he => hmn (by rw [he]))
          h1 h2

/-! Validation outputs inside traces. -/

theorem step_out_validated {g : Container} {s : RtState} {op : Op}
    {r : Except IocError Unit} (h : (step g s op).2 = .validated r) :
    r = validate g := by
  cases op with
  | openSc =>
    simp only [step] at h
    exact Out.noConfusion h
  | closeSc σc =>
    simp only [step] at h
    exact Out.noConfusion h
  | callValidate =>
    simp only [step] at h
    injection h with h
    exact h.symm
  | callResolve σ k =>
    simp only [step] at h
    cases hq : resolveF g (topFuel g) false none σ k s with
    | ok p =>
      obtain ⟨i, s1⟩ := p
      simp only [hq] at h
      exact Out.noConfusion h
    | error e =>
      simp only [hq] at h
      exact Out.noConfusion h

theorem runFrom_validated {g : Container} :
    ∀ (ops : List Op) (s : RtState) (m : Nat) (r : Except IocError Unit),
      (runFrom g s ops).2[m]? = some (.validated r) → r = validate g := by
  intro ops
  induction ops with
  | nil =>
    intro s m r h
    simp [runFrom] at h
  | cons op ops ih =>
    intro s m r h
    simp only [runFrom] at h
    cases m with
    | zero =>
      rw [List.getElem?_cons_zero] at h
      injection h with h
      exact step_out_validated h
    | succ m =>
      rw [List.getElem?_cons_succ] at h
      exact ih _ m r h

/-! The ten claims. -/

/-- C1, counterexample: in the demo container the TRANSIENT `EmailSender`
depends directly on the SCOPED `UserRepository`, yet `validate` succeeds,
so TRANSIENT consumers are not subject to the no-SCOPED rule the claim
asserts. -/
theorem C1_counterexample :
    (∃ p ∈ gDemo.bindings, p.2.lifetime = .TRANSIENT ∧
      ∃ d ∈ allDeps p.2, isScopedB gDemo d = true) ∧
    validate gDemo = .ok () :=
  ⟨by decide, by decide⟩

/-- C1 (amended): a TRANSIENT binding with a SCOPED dependency — direct or
transitive — does not make validation fail: `validate` succeeds on any such
container as long as every dependency is registered, the dependency graph
has no cycle, and no SINGLETON has a SCOPED service in its dependency
closure; the transitive no-SCOPED rule applies to SINGLETON consumers
only. -/
theorem C1_transient_scoped_passes (g : Container)
    (ht : ∃ p ∈ g.bindings, p.2.lifetime = .TRANSIENT ∧
      ∃ d ∈ allDeps p.2, isScopedB g d = true)
    (h1 : AllDepsRegistered g) (h2 : NoCycle g)
    (h3 : SingletonsScopedFree g) :
    validate g = .ok () :=
  (validate_ok_iff g).mpr ⟨h1, h2, h3⟩

theorem C1_witness : validate gDemo = .ok () :=
  C1_transient_scoped_passes gDemo (by decide) (by decide)
    (noCycle_of_cycleCheck_ok (L := ["Config", "Cache", "UserRepository",
      "EmailSender", "str"]) (by decide))
    (by decide)

/-- C2: every two successful resolutions of a SINGLETON-bound contract, at
any positions of any operation trace against the fresh container and in any
scopes, return the identical instance id; and a trace performing no
resolution constructs no instance at all (creation is lazy). -/
theorem C2_singleton_identity {g : Container} {k : String} {b : Binding}
    (hb : alook g.bindings k = some b) (hlt : b.lifetime = .SINGLETON)
    (ops : List Op) (m n σ1 σ2 i1 i2 : Nat)
    (h1 : (runFrom g sInit ops).2[m]? = some (.resolved σ1 k (.ok i1)))
    (h2 : (runFrom g sInit ops).2[n]? = some (.resolved σ2 k (.ok i2))) :
    i1 = i2 ∧
    ∀ ops' : List Op, (∀ op ∈ ops', isResolveOp op = false) →
      (runFrom g sInit ops').1.heap = [] ∧
        (runFrom g sInit ops').1.singles = [] := by
  constructor
  · have e1 := trace_singleton_final hb hlt ops sInit (inv_sInit g) m σ1 i1 h1
    have e2 := trace_singleton_final hb hlt ops sInit (inv_sInit g) n σ2 i2 h2
    rw [e1] at e2
    exact Option.some.inj e2
  · intro ops' hno
    have h := runFrom_no_resolve (g := g) ops' sInit hno
    simpa [sInit] using h

theorem C2_witness :
    (runFrom gDemo sInit [Op.openSc, Op.callResolve 0 "Config", Op.openSc,
        Op.callResolve 1 "Config"]).2 =
      [Out.scopeId 0, Out.resolved 0 "Config" (Except.ok 0), Out.scopeId 1,
        Out.resolved 1 "Config" (Except.ok 0)] ∧
    (0 : Nat) = 0 ∧
    (runFrom gDemo sInit [Op.openSc]).1.heap = [] ∧
    (runFrom gDemo sInit [Op.openSc]).1.singles = [] := by
  have h := C2_singleton_identity (g := gDemo) (k := "Config")
    (b := Binding.mk (.cls "EnvConfig") [] .SINGLETON []) rfl rfl
    [Op.openSc, Op.callResolve 0 "Config", Op.openSc, Op.callResolve 1 "Config"]
    1 3 0 1 0 0 rfl rfl
  exact ⟨rfl, h.1, (h.2 [Op.openSc] (by decide)).1,
    (h.2 [Op.openSc] (by decide)).2⟩

/-- C3: two successful resolutions of a SCOPED-bound contract in the same
scope return the identical instance id, and a resolution in one scope and a
resolution in a distinct scope return distinct ids. -/
theorem C3_scoped_identity {g : Container} {k : String} {b : Binding}
    (hb : alook g.bindings k = some b) (hlt : b.lifetime = .SCOPED)
    (ops : List Op) (m n p σ σ2 i1 i2 j : Nat) (hσ : σ ≠ σ2)
    (h1 : (runFrom g sInit ops).2[m]? = some (.resolved σ k (.ok i1)))
    (h2 : (runFrom g sInit ops).2[n]? = some (.resolved σ k (.ok i2)))
    (h3 : (runFrom g sInit ops).2[p]? = some (.resolved σ2 k (.ok j))) :
    i1 = i2 ∧ i1 ≠ j :=
  ⟨trace_scoped_pair hb hlt ops sInit (inv_sInit g) m n σ i1 i2 h1 h2,
   trace_cross_pair hb hlt ops sInit (inv_sInit g) disj_sInit m p σ σ2 i1 j hσ
     h1 h3⟩

theorem C3_witness :
    (runFrom gDemo sInit [Op.openSc, Op.callResolve 0 "UserRepository",
        Op.callResolve 0 "UserRepository", Op.openSc,
        Op.callResolve 1 "UserRepository"]).2 =
      [Out.scopeId 0, Out.resolved 0 "UserRepository" (Except.ok 3),
       Out.resolved 0 "UserRepository" (Except.ok 3), Out.scopeId 1,
       Out.resolved 1 "UserRepository" (Except.ok 5)] ∧
    ((3 : Nat) = 3 ∧ (3 : Nat) ≠ 5) :=
  ⟨rfl, C3_scoped_identity (g := gDemo) (k := "UserRepository")
    (b := Binding.mk (.cls "PostgresUserRepository") ["Config"] .SCOPED
      [Decorator.mk "CachedUserRepository" ["Cache"]]) rfl rfl
    [Op.openSc, Op.callResolve 0 "UserRepository",
      Op.callResolve 0 "UserRepository", Op.openSc,
      Op.callResolve 1 "UserRepository"]
    1 2 4 0 1 3 3 5 (by decide) rfl rfl rfl⟩

/-- C4: two successful resolutions of a TRANSIENT-bound contract at
distinct positions of a trace — even in the same scope — return distinct
instance ids, and the contract never appears in the singleton cache or in
any scope cache of the resulting state. -/
theorem C4_transient_distinct {g : Container} {k : String} {b : Binding}
    (hb : alook g.bindings k = some b) (hlt : b.lifetime = .TRANSIENT)
    (ops : List Op) (m n σ1 σ2 i1 i2 : Nat) (hmn : m ≠ n)
    (h1 : (runFrom g sInit ops).2[m]? = some (.resolved σ1 k (.ok i1)))
    (h2 : (runFrom g sInit ops).2[n]? = some (.resolved σ2 k (.ok i2))) :
    i1 ≠ i2 ∧
    (∀ p ∈ (runFrom g sInit ops).1.singles, p.1 ≠ k) ∧
    (∀ sc ∈ (runFrom g sInit ops).1.scopes, ∀ p ∈ sc.cache, p.1 ≠ k) :=
  ⟨trace_transient_pair hb hlt ops sInit (inv_sInit g) m n σ1 σ2 i1 i2
      hmn h1 h2,
   (transient_not_cached (runFrom_inv ops sInit (inv_sInit g)) hb hlt).1,
   (transient_not_cached (runFrom_inv ops sInit (inv_sInit g)) hb hlt).2⟩

theorem C4_witness :
    (runFrom gDemo sInit [Op.openSc, Op.callResolve 0 "EmailSender",
        Op.callResolve 0 "EmailSender"]).2 =
      [Out.scopeId 0, Out.resolved 0 "EmailSender" (Except.ok 4),
       Out.resolved 0 "EmailSender" (Except.ok 5)] ∧
    ((4 : Nat) ≠ 5 ∧
     (∀ p ∈ (runFrom gDemo sInit [Op.openSc, Op.callResolve 0 "EmailSender",
        Op.callResolve 0 "EmailSender"]).1.singles, p.1 ≠ "EmailSender") ∧
     (∀ sc ∈ (runFrom gDemo sInit [Op.openSc, Op.callResolve 0 "EmailSender",
        Op.callResolve 0 "EmailSender"]).1.scopes, ∀ p ∈ sc.cache,
        p.1 ≠ "EmailSender")) :=
  ⟨rfl, C4_transient_distinct (g := gDemo) (k := "EmailSender")
    (b := Binding.mk (.cls "SmtpEmailSender") ["UserRepository"] .TRANSIENT [])
    rfl rfl [Op.openSc, Op.callResolve 0 "EmailSender",
      Op.callResolve 0 "EmailSender"] 1 2 0 0 4 5 (by decide) rfl rfl⟩

/-- C5: a successful resolution of a contract whose binding carries a
non-empty decorator chain yields an instance whose decorator spine lists
the chain outermost-first — headed by the last-registered decorator — and
bottoms out at the base implementation exactly once (each layer forwards to
one inner instance, so an invocation traverses the layers in that order and
reaches the base once); the returned instance is a decorator node of the
outermost decorator wrapping an inner layer. -/
theorem C5_decorator_chain {g : Container} {k : String} {b : Binding}
    (ds : List Decorator) (dlast : Decorator)
    (hb : alook g.bindings k = some b) (hds : b.decorators = ds ++ [dlast])
    (ops : List Op) (m σ i : Nat)
    (h : (runFrom g sInit ops).2[m]? = some (.resolved σ k (.ok i))) :
    spineAt (runFrom g sInit ops).1.heap i =
      some (dlast.name :: (ds.map Decorator.name).reverse, makerName b.impl) ∧
    ∃ inner extra, (runFrom g sInit ops).1.heap[i]? =
      some (.deco dlast.name inner extra) := by
  obtain ⟨b1, hb1, hspine⟩ := trace_spine ops sInit (inv_sInit g) m σ i h
  rw [hb] at hb1
  injection hb1 with hb1
  subst hb1
  rw [hds] at hspine
  simp only [List.map_append, List.map_cons, List.map_nil,
    List.reverse_append, List.reverse_singleton, List.singleton_append]
    at hspine
  exact ⟨hspine, spineAt_head_deco hspine⟩

theorem C5_witness :
    (runFrom gDemo sInit [Op.openSc, Op.callResolve 0 "UserRepository"]).2 =
      [Out.scopeId 0, Out.resolved 0 "UserRepository" (Except.ok 3)] ∧
    (spineAt (runFrom gDemo sInit
        [Op.openSc, Op.callResolve 0 "UserRepository"]).1.heap 3 =
      some (["CachedUserRepository"], "PostgresUserRepository") ∧
    ∃ inner extra, (runFrom gDemo sInit
        [Op.openSc, Op.callResolve 0 "UserRepository"]).1.heap[3]? =
      some (ObjVal.deco "CachedUserRepository" inner extra)) :=
  ⟨rfl, C5_decorator_chain (g := gDemo) (k := "UserRepository")
    (b := Binding.mk (.cls "PostgresUserRepository") ["Config"] .SCOPED
      [Decorator.mk "CachedUserRepository" ["Cache"]])
    [] (Decorator.mk "CachedUserRepository" ["Cache"]) rfl rfl
    [Op.openSc, Op.callResolve 0 "UserRepository"] 1 0 3 rfl⟩

/-- C6: a binding with an unregistered declared dependency makes `validate`
fail with `MissingDependencyError` naming an actually-unregistered
dependency contract together with the consumer contract that declared
it. -/
theorem C6_missing_dependency {g : Container}
    (h : ∃ p ∈ g.bindings, ∃ d ∈ allDeps p.2, isReg g d = false) :
    ∃ d c, validate g = .error (.missingDep d (some c)) ∧
      ∃ b, (c, b) ∈ g.bindings ∧ d ∈ allDeps b ∧
        alook g.bindings d = none :=
  validate_missing_of_exists h

theorem C6_witness :
    validate gMiss = .error (.missingDep "UnregisteredService"
      (some "NeedsUnregistered")) ∧
    (∃ d c, validate gMiss = .error (.missingDep d (some c)) ∧
      ∃ b, (c, b) ∈ gMiss.bindings ∧ d ∈ allDeps b ∧
        alook gMiss.bindings d = none) :=
  ⟨rfl, C6_missing_dependency (by decide)⟩

/-- C7, counterexample: a container with a genuine 2-cycle between
`ServiceA` and `ServiceB` and additionally a missing dependency fails
`validate` with the missing dependency, not `CircularDependencyError`: a
cyclic graph does not guarantee a circular-dependency report. -/
theorem C7_counterexample :
    cycB gMaskCyc ["ServiceA", "ServiceB"] = true ∧
    validate gMaskCyc = .error (.missingDep "Missing" (some "ServiceA")) ∧
    ∀ cyc, validate gMaskCyc ≠ .error (.circular cyc) := by
  refine ⟨rfl, rfl, ?_⟩
  intro cyc h
  have h2 : validate gMaskCyc =
      .error (.missingDep "Missing" (some "ServiceA")) := rfl
  rw [h2] at h
  injection h with h
  exact IocError.noConfusion h

/-- C7 (amended): a genuine dependency cycle always makes `validate` fail
with some error; when moreover every dependency is registered the failure
is `CircularDependencyError` reporting an ordered cycle of the dependency
graph. -/
theorem C7_circular_dependency {g : Container}
    (hcyc : ∃ cyc, cycB g cyc = true) :
    (∃ e, validate g = .error e) ∧
    (AllDepsRegistered g →
      ∃ cyc, validate g = .error (.circular cyc) ∧ cycB g cyc = true) :=
  ⟨validate_err_of_cycle hcyc, fun hml => validate_circular_of hml hcyc⟩

theorem C7_witness :
    validate gAB = .error (.circular ["ServiceA", "ServiceB"]) ∧
    ((∃ e, validate gAB = .error e) ∧
     (AllDepsRegistered gAB →
       ∃ cyc, validate gAB = .error (.circular cyc) ∧ cycB gAB cyc = true)) :=
  ⟨rfl, C7_circular_dependency ⟨["ServiceA", "ServiceB"], rfl⟩⟩

/-- C8, counterexample: a container with a SINGLETON depending directly on
a SCOPED service and additionally a missing dependency fails `validate`
with the missing dependency, not `ContainerError`: a singleton-on-scoped
edge does not guarantee a lifetime-mismatch report. -/
theorem C8_counterexample :
    (∃ p ∈ gMaskLM.bindings, p.2.lifetime = .SINGLETON ∧
      ∃ d ∈ allDeps p.2, isScopedB gMaskLM d = true) ∧
    validate gMaskLM =
      .error (.missingDep "Missing" (some "SingletonNeedsScoped")) ∧
    ∀ v, validate gMaskLM ≠ .error (.container v) := by
  refine ⟨by decide, rfl, ?_⟩
  intro v h
  have h2 : validate gMaskLM =
      .error (.missingDep "Missing" (some "SingletonNeedsScoped")) := rfl
  rw [h2] at h
  injection h with h
  exact IocError.noConfusion h

/-- C8 (amended): a SINGLETON binding depending directly on a SCOPED one
always makes `validate` fail with some error; when every dependency is
registered and the graph has no cycle that failure is `ContainerError`
(lifetime mismatch); and resolving the singleton contract in any
invariant-respecting runtime state with an open scope fails with the
lifetime-mismatch `ContainerError` naming the consumer. -/
theorem C8_singleton_scoped {g : Container} {k : String} {b : Binding}
    {d : String} (hb : alook g.bindings k = some b)
    (hlt : b.lifetime = .SINGLETON) (hd : d ∈ allDeps b)
    (hsc : isScopedB g d = true) :
    (∃ e, validate g = .error e) ∧
    (AllDepsRegistered g → NoCycle g →
      ∃ c s, validate g = .error (.container (.lifetimeMismatch (some c) s))) ∧
    (∀ (s : RtState), Inv g s → ∀ (σ : Nat) (sc : ScopeSt),
      s.scopes[σ]? = some sc → sc.isClosed = false →
      ∃ e, resolveF g (topFuel g) false none σ k s =
        .error (.container (.lifetimeMismatch (some k) e))) := by
  have hmem : (k, b) ∈ g.bindings := alook_mem hb
  have hdc : d ∈ closureFrom g (allDeps b) := subset_closureFrom hd
  have hfind : (closureFrom g (allDeps b)).find? (isScopedB g) ≠ none := by
    intro hn
    have hno := List.find?_eq_none.mp hn d hdc
    rw [hsc] at hno
    exact hno rfl
  refine ⟨validate_err_of_sinScoped ⟨(k, b), hmem, hlt, hfind⟩, ?_, ?_⟩
  · intro h1 h2
    obtain ⟨c, s0, hv, _⟩ := validate_mismatch_of h1 h2 ⟨(k, b), hmem, hlt, hfind⟩
    exact ⟨c, s0, hv⟩
  · intro s hinv σ sc hsc1 hop
    cases hf : (allDeps b).find? (isScopedB g) with
    | none =>
      have hno := List.find?_eq_none.mp hf d hd
      rw [hsc] at hno
      exact absurd rfl hno
    | some d1 =>
      refine ⟨d1, ?_⟩
      have hres := resolve_singleton_direct_scoped hb hlt hf hinv hsc1 hop
        g.bindings.length false none
      simpa [topFuel] using hres

theorem C8_witness :
    validate gLM = .error (.container (.lifetimeMismatch
      (some "SingletonNeedsScoped") "ScopedService")) ∧
    (runFrom gLM sInit [Op.openSc, Op.callResolve 0 "SingletonNeedsScoped"]).2 =
      [Out.scopeId 0, Out.resolved 0 "SingletonNeedsScoped" (Except.error
        (.container (.lifetimeMismatch (some "SingletonNeedsScoped")
          "ScopedService")))] ∧
    ((∃ e, validate gLM = .error e) ∧
     (AllDepsRegistered gLM → NoCycle gLM →
       ∃ c s, validate gLM =
         .error (.container (.lifetimeMismatch (some c) s))) ∧
     (∀ (s : RtState), Inv gLM s → ∀ (σ : Nat) (sc : ScopeSt),
       s.scopes[σ]? = some sc → sc.isClosed = false →
       ∃ e, resolveF gLM (topFuel gLM) false none σ "SingletonNeedsScoped" s =
         .error (.container (.lifetimeMismatch
           (some "SingletonNeedsScoped") e)))) :=
  ⟨rfl, rfl, C8_singleton_scoped (g := gLM) (k := "SingletonNeedsScoped")
    (b := Binding.mk (.cls "SingletonNeedsScoped") ["ScopedService"]
      .SINGLETON []) (d := "ScopedService") rfl rfl (by decide) rfl⟩

/-- C9: validation is read-only and deterministic: a `validate` call leaves
the runtime state exactly as it was (no instance constructed, no cache tier
populated) and reports `validate g`; every validation outcome observed
anywhere in any trace equals `validate g`, so two calls against the same
registry agree; and the reported result is the first violation of the
deterministic traversal order (registration order, then declared-parameter
order). -/
theorem C9_validate_pure (g : Container) (s : RtState) :
    (step g s .callValidate).1 = s ∧
    (step g s .callValidate).2 = .validated (validate g) ∧
    (∀ (ops : List Op) (s0 : RtState) (m n : Nat)
        (r1 r2 : Except IocError Unit),
      (runFrom g s0 ops).2[m]? = some (.validated r1) →
      (runFrom g s0 ops).2[n]? = some (.validated r2) →
      r1 = validate g ∧ r2 = validate g ∧ r1 = r2) ∧
    validate g = (match (allViolations g).head? with
      | some e => .error e
      | none => .ok ()) := by
  refine ⟨rfl, rfl, ?_, validate_eq_first g⟩
  intro ops s0 m n r1 r2 h1 h2
  have e1 := runFrom_validated ops s0 m r1 h1
  have e2 := runFrom_validated ops s0 n r2 h2
  exact ⟨e1, e2, e1.trans e2.symm⟩

/-- C10: any contract name — the builtin `str` as well as a concrete
class that is no abstract base — is accepted by every builder call and then
behaves as an ordinary registry key: each call stores a binding retrievable
under that key, and the demo container, whose keys are concrete classes and
`str`, validates and resolves `str` successfully. -/
theorem C10_any_key_registration (c : Container) (k impl fn : String)
    (deps : List String) (lt : Lifetime) :
    alook (c.transient k impl deps).bindings k =
      some ⟨.cls impl, deps, .TRANSIENT, []⟩ ∧
    alook (c.singleton k impl deps).bindings k =
      some ⟨.cls impl, deps, .SINGLETON, []⟩ ∧
    alook (c.scoped k impl deps).bindings k =
      some ⟨.cls impl, deps, .SCOPED, []⟩ ∧
    alook (c.factory k fn deps lt).bindings k =
      some ⟨.facFn fn, deps, lt, []⟩ ∧
    validate gDemo = .ok () ∧
    (runFrom gDemo sInit [Op.openSc, Op.callResolve 0 "str"]).2 =
      [Out.scopeId 0, Out.resolved 0 "str" (Except.ok 1)] :=
  ⟨alook_setB c.bindings k _, alook_setB c.bindings k _,
   alook_setB c.bindings k _, alook_setB c.bindings k _, rfl, rfl⟩

end Ioc
